import Mathlib

/-!
# generic::List — a doubly linked list (src/generic/lists/list.hpp)

Shallow embedding of the container over an explicit node heap.

* A node pointer is `Option Nat`: `none` is `nullptr`, `some a` is the address of a node.
* The heap is the list of cells ever allocated; `new` takes the next unused address and
  `delete` empties the cell, so a dangling pointer never aliases a later node.
* Every operation returns `Except Fault _`: `Fault.assertion` is a failed `assert`,
  `Fault.badDeref` is the dereference of a null or deleted node (undefined behaviour
  in the source), `Fault.fuel` is a loop that was cut off by its iteration budget.
* `size` is `unsigned int` in the source: it is a natural number below `UINT_MOD` here and
  `++size` is `(size + 1) % UINT_MOD`, so the counter wraps to 0 after `UINT_MOD - 1`.
-/

namespace generic

/-- A node pointer: `none` is `nullptr`. -/
abbrev Ptr := Option Nat

/-- Source `struct Node`: `left`, `right`, `value`. -/
structure Node (α : Type) where
  left : Ptr
  right : Ptr
  value : α
deriving DecidableEq, Repr

/-- The node heap: cell `a` is `some nd` while the node at address `a` is live. -/
structure Heap (α : Type) where
  cells : List (Option (Node α))
deriving DecidableEq, Repr

/-- Ways an operation can fail to return. -/
inductive Fault where
  | assertion
  | badDeref
  | fuel
deriving DecidableEq, Repr

/-- Source `class List`: the attributes `root`, `back`, `size`. `size` is an `unsigned int`:
every operation keeps it below `UINT_MOD` (increments are taken modulo `UINT_MOD`, and
`--size` runs only behind `assert(size > 0)`). -/
structure LinkedList where
  root : Ptr
  back : Ptr
  size : Nat
deriving DecidableEq, Repr

variable {α : Type}

/-- The heap with no node. -/
def Heap.empty : Heap α := ⟨[]⟩

/-- Content of the cell at address `a` (`none`: never allocated, or deleted). -/
def Heap.read (h : Heap α) (a : Nat) : Option (Node α) := (h.cells[a]?).join

/-- Address the next `new Node` returns. -/
def Heap.fresh (h : Heap α) : Nat := h.cells.length

/-- Heap after `new Node(...)`: the node sits at `h.fresh`. -/
def Heap.alloc (h : Heap α) (nd : Node α) : Heap α := ⟨h.cells ++ [some nd]⟩

/-- Heap after a write through a pointer to the node at `a`. -/
def Heap.store (h : Heap α) (a : Nat) (nd : Node α) : Heap α := ⟨h.cells.set a (some nd)⟩

/-- Heap after `delete` of the node at `a`. -/
def Heap.free (h : Heap α) (a : Nat) : Heap α := ⟨h.cells.set a none⟩

/-- Dereference of a pointer: the address and the node it designates. -/
def deref (h : Heap α) : Ptr → Except Fault (Nat × Node α)
  | none => .error .badDeref
  | some a =>
    match h.read a with
    | none => .error .badDeref
    | some nd => .ok (a, nd)

/-- Number of values of `unsigned int` (32 bits): arithmetic on `size` is modulo `UINT_MOD`. -/
def UINT_MOD : Nat := 4294967296

/-- Source `static const unsigned int DEFAULT_SIZE = 0`. -/
def DEFAULT_SIZE : Nat := 0

/-- Source `List()`: the default-constructed list. -/
def LinkedList.empty : LinkedList := { root := none, back := none, size := DEFAULT_SIZE }

/-- Source `List(List&& other)`: the pair (new list, `other` afterwards). -/
def move_construct (other : LinkedList) : LinkedList × LinkedList :=
  ({ root := other.root, back := other.back, size := other.size },
   { root := none, back := none, size := DEFAULT_SIZE })

/-- Source `push_back(value)`. -/
def push_back (h : Heap α) (l : LinkedList) (value : α) : Except Fault (Heap α × LinkedList) :=
  match l.back with
  | none =>
    -- root = back = new Node(value); ++size
    .ok (h.alloc ⟨none, none, value⟩,
         { root := some h.fresh, back := some h.fresh, size := (l.size + 1) % UINT_MOD })
  | some b =>
    -- back->right = new Node(value, back)
    let h1 := h.alloc ⟨some b, none, value⟩
    match h1.read b with
    | none => .error .badDeref
    | some nb =>
      let h2 := h1.store b { nb with right := some h.fresh }
      -- back = back->right; ++size
      match h2.read b with
      | none => .error .badDeref
      | some nb2 => .ok (h2, { root := l.root, back := nb2.right, size := (l.size + 1) % UINT_MOD })

/-- The loop `node = node->right` run `k` times from `p`. -/
def advance (h : Heap α) : Nat → Ptr → Except Fault Ptr
  | 0, p => .ok p
  | k + 1, p =>
    match deref h p with
    | .error e => .error e
    | .ok (_, nd) => advance h k nd.right

/-- Source `insert_at(value, index)`. -/
def insert_at (h : Heap α) (l : LinkedList) (value : α) (index : Nat) :
    Except Fault (Heap α × LinkedList) :=
  if index ≤ l.size then
    if index = 0 then
      -- Node* new_node = new Node(value, nullptr, root)
      let h1 := h.alloc ⟨none, l.root, value⟩
      match l.root with
      | some r =>
        -- root->left = new_node
        match h1.read r with
        | none => .error .badDeref
        | some nr =>
          .ok (h1.store r { nr with left := some h.fresh },
               { root := some h.fresh, back := l.back, size := (l.size + 1) % UINT_MOD })
      | none => .ok (h1, { root := some h.fresh, back := l.back, size := (l.size + 1) % UINT_MOD })
    else if index = l.size then
      push_back h l value
    else
      match advance h (index - 1) l.root with
      | .error e => .error e
      | .ok node =>
        match deref h node with
        | .error e => .error e
        | .ok (n, nd) =>
          -- Node* new_node = new Node(value, node, node->right)
          let h1 := h.alloc ⟨some n, nd.right, value⟩
          match nd.right with
          | some r =>
            -- node->right->left = new_node; node->right = new_node
            match h1.read r with
            | none => .error .badDeref
            | some nr =>
              let h2 := h1.store r { nr with left := some h.fresh }
              match h2.read n with
              | none => .error .badDeref
              | some nd2 =>
                .ok (h2.store n { nd2 with right := some h.fresh },
                     { root := l.root, back := l.back, size := (l.size + 1) % UINT_MOD })
          | none =>
            .ok (h1.store n { nd with right := some h.fresh },
                 { root := l.root, back := l.back, size := (l.size + 1) % UINT_MOD })
  else .error .assertion

/-- Source `length()`. -/
def length (l : LinkedList) : Nat := l.size

/-- Source `pop_back()`: the heap and list afterwards, and the returned value. -/
def pop_back (h : Heap α) (l : LinkedList) : Except Fault (Heap α × LinkedList × α) :=
  if 0 < l.size then
    -- Type value = back->value; Node* temp = back; back = back->left
    match deref h l.back with
    | .error e => .error e
    | .ok (temp, nt) =>
      match nt.left with
      | some b =>
        -- back->right = nullptr
        match h.read b with
        | none => .error .badDeref
        | some nb =>
          .ok ((h.store b { nb with right := none }).free temp,
               { root := l.root, back := some b, size := l.size - 1 }, nt.value)
      | none =>
        -- root = nullptr
        .ok (h.free temp, { root := none, back := none, size := l.size - 1 }, nt.value)
  else .error .assertion

/-- Source `operator[](index)`. -/
def index (h : Heap α) (l : LinkedList) (i : Nat) : Except Fault α :=
  if i < l.size then
    match advance h i l.root with
    | .error e => .error e
    | .ok node =>
      match deref h node with
      | .error e => .error e
      | .ok (_, nd) => .ok nd.value
  else .error .assertion

/-- The loop `while (size > 0) pop_back()` of `operator=`, cut off after `fuel`
iterations; returns the number of iterations it ran as well. -/
def clear_loop : Nat → Heap α → LinkedList → Except Fault (Heap α × LinkedList × Nat)
  | 0, h, l => if 0 < l.size then .error .fuel else .ok (h, l, 0)
  | fuel + 1, h, l =>
    if 0 < l.size then
      match pop_back h l with
      | .error e => .error e
      | .ok (h1, l1, _) =>
        match clear_loop fuel h1 l1 with
        | .error e => .error e
        | .ok (h2, l2, n) => .ok (h2, l2, n + 1)
    else .ok (h, l, 0)

/-- The loop `while (current != nullptr) { push_back(current->value); current = current->right; }`
of `operator=`, cut off after `fuel` iterations; returns the number of iterations as well. -/
def copy_loop : Nat → Heap α → LinkedList → Ptr → Except Fault (Heap α × LinkedList × Nat)
  | 0, h, l, current =>
    match current with
    | none => .ok (h, l, 0)
    | some _ => .error .fuel
  | fuel + 1, h, l, current =>
    match current with
    | none => .ok (h, l, 0)
    | some c =>
      match h.read c with
      | none => .error .badDeref
      | some nc =>
        match push_back h l nc.value with
        | .error e => .error e
        | .ok (h1, l1) =>
          match h1.read c with
          | none => .error .badDeref
          | some nc1 =>
            match copy_loop fuel h1 l1 nc1.right with
            | .error e => .error e
            | .ok (h2, l2, n) => .ok (h2, l2, n + 1)

/-- Source `operator=(other)`: `thisAddr` and `otherAddr` are the addresses of the two list
objects (the test `this != &other`), `fuel` bounds each of the two loops. Returns the heap
and `*this` afterwards; `other` is `const` and its attributes are not written. -/
def assign (fuel : Nat) (h : Heap α) (thisAddr otherAddr : Nat) (this other : LinkedList) :
    Except Fault (Heap α × LinkedList) :=
  if thisAddr ≠ otherAddr then
    match clear_loop fuel h this with
    | .error e => .error e
    | .ok (h1, l1, _) =>
      match copy_loop fuel h1 l1 other.root with
      | .error e => .error e
      | .ok (h2, l2, _) => .ok (h2, l2)
  else .ok (h, this)

/-- Calling `push_back` on each value of `vs` in order (the body of `List(const std::vector&)`). -/
def push_back_all : Heap α → LinkedList → List α → Except Fault (Heap α × LinkedList)
  | h, l, [] => .ok (h, l)
  | h, l, v :: vs =>
    match push_back h l v with
    | .error e => .error e
    | .ok (h1, l1) => push_back_all h1 l1 vs

/-- Source `List(const std::vector<Type>& elements)`. -/
def from_vector (h : Heap α) (elements : List α) : Except Fault (Heap α × LinkedList) :=
  push_back_all h LinkedList.empty elements

/-- Source `class Iterator`: the cursor holds a node pointer. -/
structure Iterator where
  node : Ptr
deriving DecidableEq, Repr

/-- Source `begin()`. -/
def LinkedList.begin (l : LinkedList) : Iterator := ⟨l.root⟩

/-- Source `end()`: the cursor on `nullptr`, whatever the list. -/
def LinkedList.end_ (_l : LinkedList) : Iterator := ⟨none⟩

/-- Source `Iterator::operator*`. -/
def Iterator.value (h : Heap α) (it : Iterator) : Except Fault α :=
  match deref h it.node with
  | .error e => .error e
  | .ok (_, nd) => .ok nd.value

/-- Source `Iterator::operator++`. -/
def Iterator.incr (h : Heap α) (it : Iterator) : Except Fault Iterator :=
  match deref h it.node with
  | .error e => .error e
  | .ok (_, nd) => .ok ⟨nd.right⟩

/-- Source `Iterator::operator!=`. -/
def Iterator.ne (it other : Iterator) : Bool := it.node != other.node

/-- The loop `for (it = first; it != last; ++it) visit(*it)` over the cursor, cut off after
`fuel` iterations; returns the visited values in visiting order. -/
def iterate : Nat → Heap α → Iterator → Iterator → Except Fault (List α)
  | 0, _, it, last => if it.ne last then .error .fuel else .ok []
  | fuel + 1, h, it, last =>
    if it.ne last then
      match it.value h with
      | .error e => .error e
      | .ok v =>
        match it.incr h with
        | .error e => .error e
        | .ok it2 =>
          match iterate fuel h it2 last with
          | .error e => .error e
          | .ok vs => .ok (v :: vs)
    else .ok []

/-- Source `~List()`: the loop `while (root != nullptr) { temp = root; root = root->right;
delete temp; }`, cut off after `fuel` iterations; returns the heap and the list attributes
afterwards and the addresses it deleted, in order. -/
def destructor : Nat → Heap α → LinkedList → Except Fault (Heap α × LinkedList × List Nat)
  | 0, h, l =>
    match l.root with
    | none => .ok (h, l, [])
    | some _ => .error .fuel
  | fuel + 1, h, l =>
    match l.root with
    | none => .ok (h, l, [])
    | some t =>
      match h.read t with
      | none => .error .badDeref
      | some nt =>
        match destructor fuel (h.free t) { root := nt.right, back := l.back, size := l.size } with
        | .error e => .error e
        | .ok (h2, l2, freed) => .ok (h2, l2, t :: freed)

/-- One call of a mutator of the list. -/
inductive Call (α : Type) where
  | push_back (value : α)
  | insert_at (value : α) (index : Nat)
  | pop_back
deriving DecidableEq, Repr

/-- Run a sequence of mutator calls on the list, collecting what the `pop_back` calls
returned, in call order. -/
def run_calls : Heap α → LinkedList → List (Call α) →
    Except Fault (Heap α × LinkedList × List α)
  | h, l, [] => .ok (h, l, [])
  | h, l, .push_back v :: cs =>
    match push_back h l v with
    | .error e => .error e
    | .ok (h1, l1) => run_calls h1 l1 cs
  | h, l, .insert_at v i :: cs =>
    match insert_at h l v i with
    | .error e => .error e
    | .ok (h1, l1) => run_calls h1 l1 cs
  | h, l, .pop_back :: cs =>
    match pop_back h l with
    | .error e => .error e
    | .ok (h1, l1, x) =>
      match run_calls h1 l1 cs with
      | .error e => .error e
      | .ok (h2, l2, out) => .ok (h2, l2, x :: out)

/-- The plain sequence model of the same calls, in the words of the specification: append at
the end, insert at the position, remove the last. Returns the final sequence and the removed
values in call order; `none` when a call breaks its precondition (`index <= size` for
`insert_at`, `size > 0` for `pop_back`). -/
def model_calls : List α → List (Call α) → Option (List α × List α)
  | s, [] => some (s, [])
  | s, .push_back v :: cs => model_calls (s ++ [v]) cs
  | s, .insert_at v i :: cs =>
    if i ≤ s.length then model_calls (s.take i ++ v :: s.drop i) cs else none
  | s, .pop_back :: cs =>
    match s.getLast? with
    | none => none
    | some x =>
      match model_calls s.dropLast cs with
      | none => none
      | some (s2, out) => some (s2, x :: out)

/-- `k` successive `pop_back` calls, with the returned values in call order. -/
def pop_back_n : Nat → Heap α → LinkedList → Except Fault (Heap α × LinkedList × List α)
  | 0, h, l => .ok (h, l, [])
  | k + 1, h, l =>
    match pop_back h l with
    | .error e => .error e
    | .ok (h1, l1, x) =>
      match pop_back_n k h1 l1 with
      | .error e => .error e
      | .ok (h2, l2, out) => .ok (h2, l2, x :: out)

/-- Example heap: the two nodes of the list `[1, 2]`. -/
def exampleHeap : Heap Nat := ⟨[some ⟨none, some 1, 1⟩, some ⟨some 0, none, 2⟩]⟩

/-- Example list over `exampleHeap`: `root` is node 0, `back` is node 1, `size` is 2. -/
def exampleList : LinkedList := ⟨some 0, some 1, 2⟩

/-- Example heap with two lists: nodes 0 and 1 hold `[1, 2]`, node 2 holds `[5]`. -/
def pairHeap : Heap Nat :=
  ⟨[some ⟨none, some 1, 1⟩, some ⟨some 0, none, 2⟩, some ⟨none, none, 5⟩]⟩

/-- Example list over node 2 of `pairHeap`. -/
def pairOther : LinkedList := ⟨some 2, some 2, 1⟩

/-- Scenario heap after `push_back(1)`, `push_back(2)`, `push_back(3)` from the empty heap. -/
def scenarioHeap3 : Heap Nat :=
  ⟨[some ⟨none, some 1, 1⟩, some ⟨some 0, some 2, 2⟩, some ⟨some 1, none, 3⟩]⟩

/-- Scenario heap after the further `insert_at(9, 1)`: the new node is at address 3. -/
def scenarioHeap4 : Heap Nat :=
  ⟨[some ⟨none, some 3, 1⟩, some ⟨some 3, some 2, 2⟩, some ⟨some 1, none, 3⟩,
    some ⟨some 0, some 1, 9⟩]⟩

/-- Scenario heap after the further `pop_back()`: the cell at address 2 is deleted. -/
def scenarioHeap5 : Heap Nat :=
  ⟨[some ⟨none, some 3, 1⟩, some ⟨some 3, none, 2⟩, none, some ⟨some 0, some 1, 9⟩]⟩

/-! ## Data-model predicates -/

/-- Address of the last node of a segment, `prev` when the segment is empty. -/
def lastAddr : Ptr → List (Nat × α) → Ptr
  | prev, [] => prev
  | _, (a, _) :: rest => lastAddr (some a) rest

/-- Doubly linked segment: starting at `cur`, the right links visit the nodes `nodes`
(address and value) in order and the last right link is `nxt`; every visited node's left
link is the node visited just before it, `prev` for the first one. -/
def Seg (h : Heap α) : Ptr → Ptr → List (Nat × α) → Ptr → Prop
  | _, cur, [], nxt => cur = nxt
  | prev, cur, (a, v) :: rest, nxt =>
    cur = some a ∧ ∃ r, h.read a = some ⟨prev, r, v⟩ ∧ Seg h (some a) r rest nxt

/-- Forward segment: starting at `cur`, the right links visit live nodes holding `vals`
in order and the last right link is `nxt`. Left links are not looked at. -/
def FwdSeg (h : Heap α) : Ptr → List α → Ptr → Prop
  | cur, [], nxt => cur = nxt
  | cur, v :: rest, nxt =>
    ∃ a nd, cur = some a ∧ h.read a = some nd ∧ nd.value = v ∧ FwdSeg h nd.right rest nxt

/-- Backward segment: starting at `cur`, the left links visit the nodes `nodes` (address and
value) in order and the last left link is `stop`. Right links are not looked at. -/
def BwdSeg (h : Heap α) : Ptr → List (Nat × α) → Ptr → Prop
  | cur, [], stop => cur = stop
  | cur, (a, v) :: rest, stop =>
    cur = some a ∧ ∃ nd, h.read a = some nd ∧ nd.value = v ∧ BwdSeg h nd.left rest stop

/-- The addresses of the live cells of the heap, in increasing order. -/
def Heap.live (h : Heap α) : List Nat :=
  (List.range h.cells.length).filter (fun a => (h.read a).isSome)

/-- The forward element sequence read from `root` through right links up to `nullptr`. -/
def Forward (h : Heap α) (l : LinkedList) (vals : List α) : Prop := FwdSeg h l.root vals none

/-- The pointer `p` is null or an address of the set `S`. -/
def PtrIn (S : Nat → Prop) (p : Ptr) : Prop := ∀ a, p = some a → S a

/-- Every live node at an address of `S` has both links null or in `S`. -/
def LinksIn (h : Heap α) (S : Nat → Prop) : Prop :=
  ∀ a nd, S a → h.read a = some nd → PtrIn S nd.left ∧ PtrIn S nd.right

/-- The address set `S` holds every node the list can get to: `root`, `back`, and whatever
the links of a node of `S` designate. -/
def Closed (h : Heap α) (l : LinkedList) (S : Nat → Prop) : Prop :=
  PtrIn S l.root ∧ PtrIn S l.back ∧ LinksIn h S

/-- The pointer part of the data-model invariants, with the nodes `nodes` in forward order:
the right links from `root` visit exactly `nodes` and end in `nullptr`, left links mirror
right links and the first left link is `nullptr`, and `back` is the last node (`nullptr` when
there is none). -/
def Linked (h : Heap α) (l : LinkedList) (nodes : List (Nat × α)) : Prop :=
  Seg h none l.root nodes none ∧ l.back = lastAddr none nodes

/-- The data-model invariants of the list, with its nodes `nodes` in forward order: the
pointer part `Linked`, `size` is the number of nodes, and `size` is a value of
`unsigned int`. -/
def WellFormed (h : Heap α) (l : LinkedList) (nodes : List (Nat × α)) : Prop :=
  Seg h none l.root nodes none ∧ l.back = lastAddr none nodes ∧ l.size = nodes.length ∧
    l.size < UINT_MOD

/-! ## Heap lemmas -/

theorem Heap.read_lt {h : Heap α} {a : Nat} {nd : Node α} (hr : h.read a = some nd) :
    a < h.fresh := by
  unfold Heap.read at hr
  unfold Heap.fresh
  by_contra hlt
  rw [List.getElem?_eq_none (by omega)] at hr
  simp at hr

theorem Heap.read_fresh (h : Heap α) : h.read h.fresh = none := by
  cases hr : h.read h.fresh with
  | none => rfl
  | some nd => exact absurd (Heap.read_lt hr) (lt_irrefl _)

@[simp] theorem Heap.fresh_alloc (h : Heap α) (nd : Node α) :
    (h.alloc nd).fresh = h.fresh + 1 := by
  simp [Heap.alloc, Heap.fresh]

@[simp] theorem Heap.fresh_store (h : Heap α) (a : Nat) (nd : Node α) :
    (h.store a nd).fresh = h.fresh := by
  simp [Heap.store, Heap.fresh]

@[simp] theorem Heap.fresh_free (h : Heap α) (a : Nat) : (h.free a).fresh = h.fresh := by
  simp [Heap.free, Heap.fresh]

theorem Heap.read_alloc (h : Heap α) (nd : Node α) (a : Nat) :
    (h.alloc nd).read a = if a = h.fresh then some nd else h.read a := by
  unfold Heap.read Heap.alloc Heap.fresh
  by_cases ha : a < h.cells.length
  · rw [List.getElem?_append_left ha, if_neg (by omega)]
  · by_cases he : a = h.cells.length
    · subst he
      simp
    · rw [if_neg he, List.getElem?_eq_none (by simp; omega), List.getElem?_eq_none (by omega)]

theorem Heap.read_alloc_fresh (h : Heap α) (nd : Node α) :
    (h.alloc nd).read h.fresh = some nd := by
  rw [Heap.read_alloc, if_pos rfl]

theorem Heap.read_alloc_of_read {h : Heap α} {a : Nat} {x : Node α} (nd : Node α)
    (hr : h.read a = some x) : (h.alloc nd).read a = some x := by
  rw [Heap.read_alloc, if_neg (Nat.ne_of_lt (Heap.read_lt hr)), hr]

theorem Heap.read_store_same {h : Heap α} {a : Nat} (nd : Node α) (ha : a < h.fresh) :
    (h.store a nd).read a = some nd := by
  unfold Heap.read Heap.store
  unfold Heap.fresh at ha
  simp [List.getElem?_set, ha]

theorem Heap.read_store_ne (h : Heap α) {a b : Nat} (nd : Node α) (hne : b ≠ a) :
    (h.store a nd).read b = h.read b := by
  unfold Heap.read Heap.store
  simp [List.getElem?_set, Ne.symm hne]

theorem Heap.read_free_same (h : Heap α) (a : Nat) : (h.free a).read a = none := by
  unfold Heap.read Heap.free
  by_cases ha : a < h.cells.length
  · simp [List.getElem?_set, ha]
  · rw [List.getElem?_eq_none (by simp; omega)]
    rfl

theorem Heap.read_free_ne (h : Heap α) {a b : Nat} (hne : b ≠ a) :
    (h.free a).read b = h.read b := by
  unfold Heap.read Heap.free
  simp [List.getElem?_set, Ne.symm hne]

/-! ## Segment lemmas -/

theorem lastAddr_append (p : Ptr) (xs ys : List (Nat × α)) :
    lastAddr p (xs ++ ys) = lastAddr (lastAddr p xs) ys := by
  induction xs generalizing p with
  | nil => rfl
  | cons x xs ih =>
    obtain ⟨a, v⟩ := x
    simp [lastAddr, ih]

theorem lastAddr_snoc (p : Ptr) (xs : List (Nat × α)) (a : Nat) (v : α) :
    lastAddr p (xs ++ [(a, v)]) = some a := by
  rw [lastAddr_append]
  rfl

theorem seg_append {h : Heap α} {p c n : Ptr} {xs ys : List (Nat × α)} :
    Seg h p c (xs ++ ys) n ↔ ∃ m, Seg h p c xs m ∧ Seg h (lastAddr p xs) m ys n := by
  induction xs generalizing p c with
  | nil => simp [Seg, lastAddr]
  | cons x xs ih =>
    obtain ⟨a, v⟩ := x
    show (c = some a ∧ ∃ r, h.read a = some ⟨p, r, v⟩ ∧ Seg h (some a) r (xs ++ ys) n) ↔
      ∃ m, (c = some a ∧ ∃ r, h.read a = some ⟨p, r, v⟩ ∧ Seg h (some a) r xs m) ∧
        Seg h (lastAddr (some a) xs) m ys n
    constructor
    · rintro ⟨hc, r, hr, hrest⟩
      obtain ⟨m, h1, h2⟩ := ih.1 hrest
      exact ⟨m, ⟨hc, r, hr, h1⟩, h2⟩
    · rintro ⟨m, ⟨hc, r, hr, h1⟩, h2⟩
      exact ⟨hc, r, hr, ih.2 ⟨m, h1, h2⟩⟩

theorem seg_frame {h h2 : Heap α} {p c n : Ptr} {nodes : List (Nat × α)}
    (hfr : ∀ a ∈ nodes.map Prod.fst, h2.read a = h.read a) (hs : Seg h p c nodes n) :
    Seg h2 p c nodes n := by
  induction nodes generalizing p c with
  | nil => exact hs
  | cons x xs ih =>
    obtain ⟨a, v⟩ := x
    obtain ⟨hc, r, hr, hrest⟩ := hs
    refine ⟨hc, r, ?_, ih (fun b hb => hfr b (by simp at hb ⊢; exact Or.inr hb)) hrest⟩
    rw [hfr a (by simp), hr]

theorem seg_live {h : Heap α} {p c n : Ptr} {nodes : List (Nat × α)}
    (hs : Seg h p c nodes n) : ∀ a ∈ nodes.map Prod.fst, a < h.fresh := by
  induction nodes generalizing p c with
  | nil => simp
  | cons x xs ih =>
    obtain ⟨a, v⟩ := x
    obtain ⟨_, r, hr, hrest⟩ := hs
    intro b hb
    simp only [List.map_cons, List.mem_cons] at hb
    rcases hb with rfl | hb
    · exact Heap.read_lt hr
    · exact ih hrest b hb

theorem seg_length_unique {h : Heap α} {p q c : Ptr} {xs ys : List (Nat × α)}
    (h1 : Seg h p c xs none) (h2 : Seg h q c ys none) : xs.length = ys.length := by
  induction xs generalizing p q c ys with
  | nil =>
    cases ys with
    | nil => rfl
    | cons y ys =>
      obtain ⟨b, w⟩ := y
      simp only [Seg] at h1 h2
      rw [h1] at h2
      exact absurd h2.1 (by simp)
  | cons x xs ih =>
    obtain ⟨a, v⟩ := x
    obtain ⟨hc, r, hr, hrest⟩ := h1
    cases ys with
    | nil =>
      simp only [Seg] at h2
      rw [h2] at hc
      exact absurd hc (by simp)
    | cons y ys =>
      obtain ⟨b, w⟩ := y
      obtain ⟨hc2, r2, hr2, hrest2⟩ := h2
      have hab : a = b := by
        rw [hc] at hc2
        exact Option.some.inj hc2
      subst hab
      rw [hr] at hr2
      have hrr : r = r2 := by
        have := Option.some.inj hr2
        exact congrArg Node.right this
      subst hrr
      simp [ih hrest hrest2]

theorem seg_nodup {h : Heap α} {p c : Ptr} {nodes : List (Nat × α)}
    (hs : Seg h p c nodes none) : (nodes.map Prod.fst).Nodup := by
  induction nodes generalizing p c with
  | nil => simp
  | cons x xs ih =>
    obtain ⟨a, v⟩ := x
    have hs0 := hs
    obtain ⟨hc, r, hr, hrest⟩ := hs
    rw [List.map_cons, List.nodup_cons]
    refine ⟨?_, ih hrest⟩
    intro hmem
    obtain ⟨⟨a2, w⟩, hmem2, ha2⟩ := List.mem_map.1 hmem
    simp only at ha2
    subst ha2
    obtain ⟨s, t, hst⟩ := List.append_of_mem hmem2
    rw [hst, seg_append] at hrest
    obtain ⟨m, _, htail⟩ := hrest
    have hm : m = some a2 := htail.1
    rw [hm, ← hc] at htail
    have hlen := seg_length_unique hs0 htail
    rw [hst] at hlen
    simp at hlen
    omega

theorem seg_to_fwd {h : Heap α} {p c n : Ptr} {nodes : List (Nat × α)}
    (hs : Seg h p c nodes n) : FwdSeg h c (nodes.map Prod.snd) n := by
  induction nodes generalizing p c with
  | nil => exact hs
  | cons x xs ih =>
    obtain ⟨a, v⟩ := x
    obtain ⟨hc, r, hr, hrest⟩ := hs
    exact ⟨a, _, hc, hr, rfl, ih hrest⟩

theorem fwd_append {h : Heap α} {c n : Ptr} {xs ys : List α} :
    FwdSeg h c (xs ++ ys) n ↔ ∃ m, FwdSeg h c xs m ∧ FwdSeg h m ys n := by
  induction xs generalizing c with
  | nil => simp [FwdSeg]
  | cons x xs ih =>
    show (∃ a nd, c = some a ∧ h.read a = some nd ∧ nd.value = x ∧
        FwdSeg h nd.right (xs ++ ys) n) ↔
      ∃ m, (∃ a nd, c = some a ∧ h.read a = some nd ∧ nd.value = x ∧ FwdSeg h nd.right xs m) ∧
        FwdSeg h m ys n
    constructor
    · rintro ⟨a, nd, hc, hr, hv, hrest⟩
      obtain ⟨m, h1, h2⟩ := ih.1 hrest
      exact ⟨m, ⟨a, nd, hc, hr, hv, h1⟩, h2⟩
    · rintro ⟨m, ⟨a, nd, hc, hr, hv, h1⟩, h2⟩
      exact ⟨a, nd, hc, hr, hv, ih.2 ⟨m, h1, h2⟩⟩

theorem fwd_advance {h : Heap α} {c m : Ptr} {xs : List α} (hs : FwdSeg h c xs m) :
    advance h xs.length c = .ok m := by
  induction xs generalizing c with
  | nil =>
    simp only [FwdSeg] at hs
    simp [advance, hs]
  | cons x xs ih =>
    obtain ⟨a, nd, hc, hr, _, hrest⟩ := hs
    simp [advance, deref, hc, hr, ih hrest]

theorem fwd_unique {h : Heap α} {c : Ptr} {xs ys : List α}
    (h1 : FwdSeg h c xs none) (h2 : FwdSeg h c ys none) : xs = ys := by
  induction xs generalizing c ys with
  | nil =>
    cases ys with
    | nil => rfl
    | cons y ys =>
      simp only [FwdSeg] at h1 h2
      obtain ⟨a, _, hc, _⟩ := h2
      rw [h1] at hc
      exact absurd hc (by simp)
  | cons x xs ih =>
    obtain ⟨a, nd, hc, hr, hv, hrest⟩ := h1
    cases ys with
    | nil =>
      simp only [FwdSeg] at h2
      rw [h2] at hc
      exact absurd hc (by simp)
    | cons y ys =>
      obtain ⟨b, nd2, hc2, hr2, hv2, hrest2⟩ := h2
      rw [hc] at hc2
      have hab := Option.some.inj hc2
      subst hab
      rw [hr] at hr2
      have hnd := Option.some.inj hr2
      subst hnd
      rw [← hv, ← hv2, ih hrest hrest2]

theorem fwd_frame {h h2 : Heap α} {c n : Ptr} {xs : List α}
    (hfr : ∀ a nd, h.read a = some nd → h2.read a = some nd) (hs : FwdSeg h c xs n) :
    FwdSeg h2 c xs n := by
  induction xs generalizing c with
  | nil => exact hs
  | cons x xs ih =>
    obtain ⟨a, nd, hc, hr, hv, hrest⟩ := hs
    exact ⟨a, nd, hc, hfr a nd hr, hv, ih hrest⟩

/-! ## The operations on well-formed lists -/

theorem WellFormed.linked {h : Heap α} {l : LinkedList} {nodes : List (Nat × α)}
    (hw : WellFormed h l nodes) : Linked h l nodes := ⟨hw.1, hw.2.1⟩

theorem wellFormed_of_linked {h : Heap α} {l : LinkedList} {nodes : List (Nat × α)}
    (hl : Linked h l nodes) (hsize : l.size = nodes.length) (hlt : l.size < UINT_MOD) :
    WellFormed h l nodes := ⟨hl.1, hl.2, hsize, hlt⟩

theorem WellFormed.nil_iff {h : Heap α} {l : LinkedList} :
    WellFormed h l ([] : List (Nat × α)) ↔ l = LinkedList.empty := by
  obtain ⟨root, back, size⟩ := l
  constructor
  · rintro ⟨hs, hb, hz, _⟩
    simp only [Seg, lastAddr, List.length_nil] at hs hb hz
    rw [hs, hb, hz]
    rfl
  · intro he
    rw [he]
    exact ⟨rfl, rfl, rfl, by decide⟩

theorem linked_snoc_inv {h : Heap α} {l : LinkedList} {xs : List (Nat × α)} {t : Nat} {v : α}
    (hl : Linked h l (xs ++ [(t, v)])) :
    Seg h none l.root xs (some t) ∧ h.read t = some ⟨lastAddr none xs, none, v⟩ ∧
      l.back = some t ∧ t ∉ xs.map Prod.fst := by
  obtain ⟨hseg, hback⟩ := hl
  have hnd := seg_nodup hseg
  obtain ⟨m, h1, h2⟩ := seg_append.1 hseg
  obtain ⟨hm, r, hr, hn⟩ := h2
  simp only [Seg] at hn
  subst hn
  subst hm
  refine ⟨h1, hr, ?_, ?_⟩
  · rw [hback, lastAddr_snoc]
  · rw [List.map_append, List.nodup_append] at hnd
    intro hmem
    exact hnd.2.2 hmem (by simp)

theorem WellFormed.snoc_inv {h : Heap α} {l : LinkedList} {xs : List (Nat × α)} {t : Nat} {v : α}
    (hw : WellFormed h l (xs ++ [(t, v)])) :
    Seg h none l.root xs (some t) ∧ h.read t = some ⟨lastAddr none xs, none, v⟩ ∧
      l.back = some t ∧ l.size = xs.length + 1 ∧ t ∉ xs.map Prod.fst := by
  obtain ⟨hseg, hrt, hback, hnot⟩ := linked_snoc_inv hw.linked
  exact ⟨hseg, hrt, hback, by simpa using hw.2.2.1, hnot⟩

theorem lastAddr_some (a : Nat) (xs : List (Nat × α)) : ∃ b, lastAddr (some a) xs = some b := by
  induction xs generalizing a with
  | nil => exact ⟨a, rfl⟩
  | cons x xs ih =>
    obtain ⟨c, v⟩ := x
    exact ih c

/-- A well-formed list satisfies `size == 0 iff root == null iff back == null`. -/
theorem wellFormed_empty_iff {h : Heap α} {l : LinkedList} {nodes : List (Nat × α)}
    (hw : WellFormed h l nodes) :
    (l.size = 0 ↔ l.root = none) ∧ (l.root = none ↔ l.back = none) := by
  cases nodes with
  | nil =>
    have hl := WellFormed.nil_iff.1 hw
    subst hl
    exact ⟨⟨fun _ => rfl, fun _ => rfl⟩, ⟨fun _ => rfl, fun _ => rfl⟩⟩
  | cons x xs =>
    obtain ⟨a, v⟩ := x
    obtain ⟨hseg, hback, hsize, _⟩ := hw
    obtain ⟨b, hb⟩ : ∃ b, lastAddr (some a) xs = some b := lastAddr_some a xs
    have hroot : l.root = some a := hseg.1
    have hback2 : l.back = some b := by
      rw [hback]
      exact hb
    have hsz : l.size ≠ 0 := by
      rw [hsize]
      simp
    rw [hroot, hback2]
    exact ⟨⟨fun e => absurd e hsz, fun e => absurd e (by simp)⟩,
      ⟨fun e => absurd e (by simp), fun e => absurd e (by simp)⟩⟩

/-- On a list whose pointers are linked over `nodes`, `push_back` returns, the pointers are
linked over `nodes` with the new node appended, `size` is incremented modulo `UINT_MOD`, and
cells of other nodes are untouched. -/
theorem push_back_linked {h : Heap α} {l : LinkedList} {nodes : List (Nat × α)} (v : α)
    (hl : Linked h l nodes) :
    ∃ h2 l2, push_back h l v = .ok (h2, l2) ∧ Linked h2 l2 (nodes ++ [(h.fresh, v)]) ∧
      l2.size = (l.size + 1) % UINT_MOD ∧ h2.fresh = h.fresh + 1 ∧
      ∀ a, a ∉ nodes.map Prod.fst → a ≠ h.fresh → h2.read a = h.read a := by
  rcases List.eq_nil_or_concat nodes with rfl | ⟨xs, x, rfl⟩
  · obtain ⟨hroot, hback⟩ := hl
    simp only [Seg, lastAddr] at hroot hback
    refine ⟨h.alloc ⟨none, none, v⟩, ⟨some h.fresh, some h.fresh, (l.size + 1) % UINT_MOD⟩,
      ?_, ⟨⟨rfl, none, ?_, rfl⟩, rfl⟩, rfl, by simp, ?_⟩
    · simp only [push_back, hback]
    · exact Heap.read_alloc_fresh _ _
    · intro a _ hne
      rw [Heap.read_alloc, if_neg hne]
  · obtain ⟨t, w⟩ := x
    rw [List.concat_eq_append] at hl ⊢
    obtain ⟨hseg, hrt, hback, hnot⟩ := linked_snoc_inv hl
    have hlive := seg_live hseg
    have htlt : t < h.fresh := Heap.read_lt hrt
    have hr1 : (h.alloc ⟨some t, none, v⟩).read t = some ⟨lastAddr none xs, none, w⟩ :=
      Heap.read_alloc_of_read _ hrt
    have htlt1 : t < (h.alloc ⟨some t, none, v⟩).fresh := by
      rw [Heap.fresh_alloc]
      omega
    have hr2 : ((h.alloc ⟨some t, none, v⟩).store t ⟨lastAddr none xs, some h.fresh, w⟩).read t
        = some ⟨lastAddr none xs, some h.fresh, w⟩ :=
      Heap.read_store_same _ htlt1
    refine ⟨(h.alloc ⟨some t, none, v⟩).store t ⟨lastAddr none xs, some h.fresh, w⟩,
      ⟨l.root, some h.fresh, (l.size + 1) % UINT_MOD⟩, ?_, ⟨?_, ?_⟩, rfl, by simp, ?_⟩
    · simp only [push_back, hback, hr1, hr2]
    · rw [List.append_assoc, seg_append]
      refine ⟨some t, seg_frame ?_ hseg, rfl, some h.fresh, hr2, rfl, none, ?_, rfl⟩
      · intro a ha
        have hat : a ≠ t := fun e => hnot (e ▸ ha)
        have haf : a ≠ h.fresh := Nat.ne_of_lt (hlive a ha)
        rw [Heap.read_store_ne _ _ hat, Heap.read_alloc, if_neg haf]
      · rw [Heap.read_store_ne _ _ (Nat.ne_of_gt htlt), Heap.read_alloc_fresh]
    · exact (lastAddr_snoc none (xs ++ [(t, w)]) h.fresh v).symm
    · intro a ha hne
      have hat : a ≠ t := fun e => ha (by simp [e])
      rw [Heap.read_store_ne _ _ hat, Heap.read_alloc, if_neg hne]

/-- On a well-formed list with `size + 1` still a value of `unsigned int`, `push_back`
returns and the list is well-formed again with the new node appended; cells of other nodes
are untouched. -/
theorem push_back_wf {h : Heap α} {l : LinkedList} {nodes : List (Nat × α)} (v : α)
    (hw : WellFormed h l nodes) (hroom : l.size + 1 < UINT_MOD) :
    ∃ h2 l2, push_back h l v = .ok (h2, l2) ∧ WellFormed h2 l2 (nodes ++ [(h.fresh, v)]) ∧
      l2.size = l.size + 1 ∧ h2.fresh = h.fresh + 1 ∧
      ∀ a, a ∉ nodes.map Prod.fst → a ≠ h.fresh → h2.read a = h.read a := by
  obtain ⟨h2, l2, hp, hl2, hsz, hfr, hframe⟩ := push_back_linked v hw.linked
  have hsz2 : l2.size = l.size + 1 := by
    rw [hsz]
    exact Nat.mod_eq_of_lt hroom
  refine ⟨h2, l2, hp, wellFormed_of_linked hl2 ?_ (by rw [hsz2]; exact hroom), hsz2, hfr, hframe⟩
  rw [hsz2, hw.2.2.1]
  simp

/-- On a well-formed non-empty list `pop_back` returns the value of the last node, and the
list is well-formed again with that node removed; cells of other nodes are untouched and the
removed cell is deleted. -/
theorem pop_back_wf {h : Heap α} {l : LinkedList} {xs : List (Nat × α)} {t : Nat} {v : α}
    (hw : WellFormed h l (xs ++ [(t, v)])) :
    ∃ h2 l2, pop_back h l = .ok (h2, l2, v) ∧ WellFormed h2 l2 xs ∧
      l2.size = l.size - 1 ∧ h2.fresh = h.fresh ∧ h2.read t = none ∧
      ∀ a, a ∉ (xs ++ [(t, v)]).map Prod.fst → h2.read a = h.read a := by
  obtain ⟨hseg, hrt, hback, hsize, hnot⟩ := WellFormed.snoc_inv hw
  have hnd := seg_nodup hw.1
  have hlt : l.size < UINT_MOD := hw.2.2.2
  have hpos : 0 < l.size := by omega
  have hlt2 : l.size - 1 < UINT_MOD := by omega
  rcases List.eq_nil_or_concat xs with rfl | ⟨ys, y, rfl⟩
  · simp only [Seg] at hseg
    refine ⟨h.free t, ⟨none, none, l.size - 1⟩, ?_, ?_, rfl, by simp, Heap.read_free_same _ _, ?_⟩
    · simp [pop_back, hpos, hback, deref, hrt, lastAddr]
    · exact ⟨rfl, rfl, by simp [hsize], hlt2⟩
    · intro a ha
      exact Heap.read_free_ne _ (fun e => ha (by simp [e]))
  · obtain ⟨b, w⟩ := y
    rw [List.concat_eq_append] at hseg hrt hsize hnot hnd ⊢
    obtain ⟨m, hs1, hs2⟩ := seg_append.1 hseg
    obtain ⟨hm, r, hrb, hn⟩ := hs2
    simp only [Seg] at hn
    subst hn
    subst hm
    have hbt : b ≠ t := fun e => hnot (by simp [e])
    have hbnot : b ∉ ys.map Prod.fst := by
      rw [List.map_append, List.map_append, List.nodup_append] at hnd
      have hnd1 := hnd.1
      rw [List.nodup_append] at hnd1
      intro hmem
      exact hnd1.2.2 hmem (by simp)
    rw [lastAddr_snoc] at hrt
    refine ⟨(h.store b ⟨lastAddr none ys, none, w⟩).free t, ⟨l.root, some b, l.size - 1⟩,
      ?_, ⟨?_, ?_, ?_, hlt2⟩, rfl, by simp, Heap.read_free_same _ _, ?_⟩
    · simp [pop_back, hpos, hback, deref, hrt, hrb]
    · rw [seg_append]
      refine ⟨some b, seg_frame ?_ hs1, rfl, none, ?_, rfl⟩
      · intro a ha
        have hab : a ≠ b := fun e => hbnot (e ▸ ha)
        have hat : a ≠ t := fun e => hnot (by simp [← e]; exact Or.inl (by simpa using ha))
        rw [Heap.read_free_ne _ hat, Heap.read_store_ne _ _ hab]
      · rw [Heap.read_free_ne _ hbt, Heap.read_store_same _ (Heap.read_lt hrb)]
    · simp [lastAddr_snoc]
    · simp at hsize
      simp [hsize]
    · intro a ha
      have hat : a ≠ t := fun e => ha (by simp [e])
      have hab : a ≠ b := fun e => ha (by simp [e])
      rw [Heap.read_free_ne _ hat, Heap.read_store_ne _ _ hab]

theorem index_of_forward {h : Heap α} {l : LinkedList} {vals : List α}
    (hf : Forward h l vals) (i : Nat) (hi : i < vals.length) (hs : i < l.size) :
    index h l i = .ok (vals.get ⟨i, hi⟩) := by
  have hsplit : vals = vals.take i ++ vals.get ⟨i, hi⟩ :: vals.drop (i + 1) := by
    simp
  unfold Forward at hf
  rw [hsplit, fwd_append] at hf
  obtain ⟨m, h1, a, nd, hm, hr, hv, _⟩ := hf
  have hadv := fwd_advance h1
  rw [List.length_take, Nat.min_eq_left (le_of_lt hi)] at hadv
  simp [index, hs, hadv, deref, hm, hr, hv]

theorem WellFormed.forward {h : Heap α} {l : LinkedList} {nodes : List (Nat × α)}
    (hw : WellFormed h l nodes) : Forward h l (nodes.map Prod.snd) :=
  seg_to_fwd hw.1

/-- Repeated `push_back` on a linked list: it returns, the pointers are linked over the old
nodes followed by new nodes holding `vs`, and `size` grew by `|vs|` modulo `UINT_MOD`. -/
theorem push_back_all_linked {h : Heap α} {l : LinkedList} {nodes : List (Nat × α)}
    (vs : List α) (hl : Linked h l nodes) (hlt : l.size < UINT_MOD) :
    ∃ h2 l2 news, push_back_all h l vs = .ok (h2, l2) ∧ Linked h2 l2 (nodes ++ news) ∧
      news.map Prod.snd = vs ∧ l2.size = (l.size + vs.length) % UINT_MOD ∧
      (vs = [] → l2 = l) := by
  induction vs generalizing h l nodes with
  | nil =>
    refine ⟨h, l, [], rfl, by simpa using hl, rfl, ?_, fun _ => rfl⟩
    exact (Nat.mod_eq_of_lt hlt).symm
  | cons v vs ih =>
    obtain ⟨h1, l1, hp, hl1, hsz1, _⟩ := push_back_linked v hl
    have hlt1 : l1.size < UINT_MOD := by
      rw [hsz1]
      exact Nat.mod_lt _ (by decide)
    obtain ⟨h2, l2, news, hrun, hl2, hmap, hsz2, _⟩ := ih hl1 hlt1
    refine ⟨h2, l2, (h.fresh, v) :: news, ?_, ?_, ?_, ?_, fun hnil => absurd hnil (by simp)⟩
    · simp only [push_back_all, hp, hrun]
    · simpa using hl2
    · simp [hmap]
    · rw [hsz2, hsz1, List.length_cons]
      simp only [UINT_MOD]
      omega

theorem push_back_all_wf {h : Heap α} {l : LinkedList} {nodes : List (Nat × α)} (vs : List α)
    (hw : WellFormed h l nodes) (hroom : l.size + vs.length < UINT_MOD) :
    ∃ h2 l2 news, push_back_all h l vs = .ok (h2, l2) ∧ WellFormed h2 l2 (nodes ++ news) ∧
      news.map Prod.snd = vs := by
  obtain ⟨h2, l2, news, hrun, hl2, hmap, hsz, _⟩ :=
    push_back_all_linked vs hw.linked hw.2.2.2
  have hsz2 : l2.size = l.size + vs.length := by
    rw [hsz]
    exact Nat.mod_eq_of_lt hroom
  have hlen : news.length = vs.length := by
    rw [← hmap]
    simp
  refine ⟨h2, l2, news, hrun, wellFormed_of_linked hl2 ?_ (by rw [hsz2]; exact hroom), hmap⟩
  rw [hsz2, hw.2.2.1, List.length_append, hlen]

/-- Insertion at the front of a well-formed non-empty list. -/
theorem insert_at_front_linked {h : Heap α} {l : LinkedList} {r : Nat} {w : α}
    {rest : List (Nat × α)} (v : α) (hw : WellFormed h l ((r, w) :: rest)) :
    ∃ h2 l2, insert_at h l v 0 = .ok (h2, l2) ∧
      Linked h2 l2 ((h.fresh, v) :: (r, w) :: rest) ∧
      l2.size = (l.size + 1) % UINT_MOD ∧ h2.fresh = h.fresh + 1 ∧
      ∀ a, a ∉ ((r, w) :: rest).map Prod.fst → a ≠ h.fresh → h2.read a = h.read a := by
  obtain ⟨hseg, hback, hsize, _⟩ := hw
  have hnd := seg_nodup hseg
  have hlive := seg_live hseg
  obtain ⟨hroot, rr, hr, hrest⟩ := hseg
  rw [List.map_cons, List.nodup_cons] at hnd
  have hrlt : r < h.fresh := Heap.read_lt hr
  have hr1 : (h.alloc ⟨none, l.root, v⟩).read r = some ⟨none, rr, w⟩ :=
    Heap.read_alloc_of_read _ hr
  have hrlt1 : r < (h.alloc ⟨none, l.root, v⟩).fresh := by
    rw [Heap.fresh_alloc]
    omega
  refine ⟨(h.alloc ⟨none, l.root, v⟩).store r ⟨some h.fresh, rr, w⟩,
    ⟨some h.fresh, l.back, (l.size + 1) % UINT_MOD⟩, ?_, ⟨?_, ?_⟩, rfl, by simp, ?_⟩
  · have hr1b : (h.alloc ⟨none, some r, v⟩).read r = some ⟨none, rr, w⟩ :=
      Heap.read_alloc_of_read _ hr
    simp only [insert_at, Nat.zero_le, if_true, hroot, hr1b]
  · refine ⟨rfl, some r, ?_, rfl, rr, Heap.read_store_same _ hrlt1, seg_frame ?_ hrest⟩
    · rw [Heap.read_store_ne _ _ (Nat.ne_of_gt hrlt), hroot, Heap.read_alloc_fresh]
    · intro a ha
      have har : a ≠ r := fun e => hnd.1 (e ▸ ha)
      have haf : a ≠ h.fresh := Nat.ne_of_lt (hlive a (by simp at ha ⊢; exact Or.inr ha))
      rw [Heap.read_store_ne _ _ har, Heap.read_alloc, if_neg haf]
  · exact hback
  · intro a ha hne
    have har : a ≠ r := fun e => ha (by simp [e])
    rw [Heap.read_store_ne _ _ har, Heap.read_alloc, if_neg hne]

/-- On a list with `size ≠ 0`, `insert_at(v, size)` is the call `push_back(v)`. -/
theorem insert_at_size_eq_push_back (h : Heap α) (l : LinkedList) (v : α) (hpos : l.size ≠ 0) :
    insert_at h l v l.size = push_back h l v := by
  simp only [insert_at, le_refl, if_true, hpos, if_false]

/-- Insertion at index 0 of the empty list: the new node becomes `root`, `back` stays null. -/
theorem insert_at_front_empty (h : Heap α) (v : α) :
    insert_at h LinkedList.empty v 0 =
      .ok (h.alloc ⟨none, none, v⟩, ⟨some h.fresh, none, 1⟩) := by
  simp [insert_at, LinkedList.empty, DEFAULT_SIZE, UINT_MOD]

/-- Insertion strictly inside a well-formed list, after the node `n` and before the node `r`. -/
theorem insert_at_middle_linked {h : Heap α} {l : LinkedList} {xs ys : List (Nat × α)}
    {n r : Nat} {w u : α} (v : α) (hw : WellFormed h l (xs ++ (n, w) :: (r, u) :: ys)) :
    ∃ h2 l2, insert_at h l v (xs.length + 1) = .ok (h2, l2) ∧
      Linked h2 l2 (xs ++ (n, w) :: (h.fresh, v) :: (r, u) :: ys) ∧
      l2.size = (l.size + 1) % UINT_MOD ∧ h2.fresh = h.fresh + 1 ∧
      ∀ a, a ∉ (xs ++ (n, w) :: (r, u) :: ys).map Prod.fst → a ≠ h.fresh →
        h2.read a = h.read a := by
  obtain ⟨hseg, hback, hsize, _⟩ := hw
  have hnd := seg_nodup hseg
  have hlive := seg_live hseg
  obtain ⟨m, hs1, hs2⟩ := seg_append.1 hseg
  obtain ⟨hm, nr, hrn, hr, rr, hrr, hs3⟩ := hs2
  subst hm
  subst hr
  have hadv := fwd_advance (seg_to_fwd hs1)
  rw [List.length_map] at hadv
  simp only [List.map_append, List.map_cons, List.nodup_append, List.nodup_cons, List.mem_cons,
    List.mem_append, not_or] at hnd hlive
  obtain ⟨_, ⟨⟨hnr, hnys⟩, hrys, _⟩, hdisj⟩ := hnd
  have hnxs : n ∉ xs.map Prod.fst := fun hmem => hdisj hmem (by simp)
  have hrxs : r ∉ xs.map Prod.fst := fun hmem => hdisj hmem (by simp)
  have hnlt : n < h.fresh := Heap.read_lt hrn
  have hrlt : r < h.fresh := Heap.read_lt hrr
  have hsz : l.size = xs.length + (ys.length + 2) := by
    rw [hsize]
    simp
  have hr1 : (h.alloc ⟨some n, some r, v⟩).read r = some ⟨some n, rr, u⟩ :=
    Heap.read_alloc_of_read _ hrr
  have hrlt1 : r < (h.alloc ⟨some n, some r, v⟩).fresh := by
    rw [Heap.fresh_alloc]
    omega
  have hn2 : ((h.alloc ⟨some n, some r, v⟩).store r ⟨some h.fresh, rr, u⟩).read n
      = some ⟨lastAddr none xs, some r, w⟩ := by
    rw [Heap.read_store_ne _ _ hnr]
    exact Heap.read_alloc_of_read _ hrn
  have hnlt2 : n < ((h.alloc ⟨some n, some r, v⟩).store r ⟨some h.fresh, rr, u⟩).fresh := by
    rw [Heap.fresh_store, Heap.fresh_alloc]
    omega
  refine ⟨((h.alloc ⟨some n, some r, v⟩).store r ⟨some h.fresh, rr, u⟩).store n
      ⟨lastAddr none xs, some h.fresh, w⟩,
    ⟨l.root, l.back, (l.size + 1) % UINT_MOD⟩, ?_, ⟨?_, ?_⟩, rfl, by simp, ?_⟩
  · have h1 : xs.length + 1 ≤ l.size := by omega
    have h2 : xs.length + 1 ≠ l.size := by omega
    simp only [insert_at, h1, if_true, Nat.succ_ne_zero, if_false, h2, Nat.add_sub_cancel,
      hadv, deref, hrn, hr1, hn2]
  · rw [seg_append]
    refine ⟨some n, seg_frame ?_ hs1, rfl, some h.fresh, Heap.read_store_same _ hnlt2,
      rfl, some r, ?_, rfl, rr, ?_, seg_frame ?_ hs3⟩
    · intro a ha
      have han : a ≠ n := fun e => hnxs (e ▸ ha)
      have har : a ≠ r := fun e => hrxs (e ▸ ha)
      have haf : a ≠ h.fresh := Nat.ne_of_lt (hlive a (Or.inl ha))
      rw [Heap.read_store_ne _ _ han, Heap.read_store_ne _ _ har, Heap.read_alloc, if_neg haf]
    · rw [Heap.read_store_ne _ _ (Nat.ne_of_gt hnlt), Heap.read_store_ne _ _ (Nat.ne_of_gt hrlt),
        Heap.read_alloc_fresh]
    · rw [Heap.read_store_ne _ _ (Ne.symm hnr), Heap.read_store_same _ hrlt1]
    · intro a ha
      have han : a ≠ n := fun e => hnys (e ▸ ha)
      have har : a ≠ r := fun e => hrys (e ▸ ha)
      have haf : a ≠ h.fresh := Nat.ne_of_lt (hlive a (Or.inr (Or.inr (Or.inr ha))))
      rw [Heap.read_store_ne _ _ han, Heap.read_store_ne _ _ har, Heap.read_alloc, if_neg haf]
  · rw [hback, lastAddr_append, lastAddr_append]
    rfl
  · intro a ha hne
    simp only [List.map_append, List.map_cons, List.mem_append, List.mem_cons, not_or] at ha
    rw [Heap.read_store_ne _ _ ha.2.1, Heap.read_store_ne _ _ ha.2.2.1, Heap.read_alloc,
      if_neg hne]

theorem exists_split_two {β : Type} (k : Nat) (l : List β) (hk : k + 1 < l.length) :
    ∃ xs x y ys, l = xs ++ x :: y :: ys ∧ xs.length = k := by
  induction k generalizing l with
  | zero =>
    match l, hk with
    | a :: b :: t, _ => exact ⟨[], a, b, t, rfl, rfl⟩
  | succ k ih =>
    match l, hk with
    | a :: t, hk =>
      obtain ⟨xs, x, y, ys, ht, hlen⟩ := ih t (by simpa using hk)
      exact ⟨a :: xs, x, y, ys, by rw [ht]; rfl, by simp [hlen]⟩

theorem take_drop_middle {β : Type} (xs : List β) (x y z : β) (ys : List β) :
    (xs ++ x :: y :: ys).take (xs.length + 1) ++ z :: (xs ++ x :: y :: ys).drop (xs.length + 1)
      = xs ++ x :: z :: y :: ys := by
  induction xs with
  | nil => rfl
  | cons a xs ih => simpa using ih

/-- Insertion at any index `i ≤ size` of a well-formed non-empty list returns; the pointers
are linked over the old nodes with the new node at position `i`, and `size` is incremented
modulo `UINT_MOD`. -/
theorem insert_at_nonempty_linked {h : Heap α} {l : LinkedList} {nodes : List (Nat × α)}
    (v : α) (i : Nat) (hw : WellFormed h l nodes) (hne : nodes ≠ []) (hi : i ≤ l.size) :
    ∃ h2 l2, insert_at h l v i = .ok (h2, l2) ∧
      Linked h2 l2 (nodes.take i ++ (h.fresh, v) :: nodes.drop i) ∧
      l2.size = (l.size + 1) % UINT_MOD ∧ h2.fresh = h.fresh + 1 ∧
      ∀ a, a ∉ nodes.map Prod.fst → a ≠ h.fresh → h2.read a = h.read a := by
  have hsize : l.size = nodes.length := hw.2.2.1
  have hpos : 0 < nodes.length := List.length_pos.2 hne
  by_cases h0 : i = 0
  · subst h0
    match nodes, hw, hne with
    | (r, w) :: rest, hw, _ => exact insert_at_front_linked v hw
  by_cases hend : i = l.size
  · subst hend
    obtain ⟨h2, l2, hp, hl2, hrest⟩ := push_back_linked v hw.linked
    refine ⟨h2, l2, ?_, ?_, hrest⟩
    · simp only [insert_at, le_refl, if_true, h0, if_false]
      exact hp
    · rw [hsize]
      simpa using hl2
  · obtain ⟨xs, ⟨n, w⟩, ⟨r, u⟩, ys, hnodes, hlen⟩ :=
      exists_split_two (i - 1) nodes (by omega)
    subst hnodes
    have hi1 : i = xs.length + 1 := by omega
    subst hi1
    rw [take_drop_middle]
    exact insert_at_middle_linked v hw

/-- Insertion at any index `i ≤ size` of a well-formed non-empty list with `size + 1` still a
value of `unsigned int` returns and keeps the list well-formed, with the new node at
position `i`. -/
theorem insert_at_nonempty_wf {h : Heap α} {l : LinkedList} {nodes : List (Nat × α)} (v : α)
    (i : Nat) (hw : WellFormed h l nodes) (hne : nodes ≠ []) (hi : i ≤ l.size)
    (hroom : l.size + 1 < UINT_MOD) :
    ∃ h2 l2, insert_at h l v i = .ok (h2, l2) ∧
      WellFormed h2 l2 (nodes.take i ++ (h.fresh, v) :: nodes.drop i) ∧
      l2.size = l.size + 1 ∧ h2.fresh = h.fresh + 1 ∧
      ∀ a, a ∉ nodes.map Prod.fst → a ≠ h.fresh → h2.read a = h.read a := by
  obtain ⟨h2, l2, hrun, hl2, hsz, hfr, hframe⟩ := insert_at_nonempty_linked v i hw hne hi
  have hsz2 : l2.size = l.size + 1 := by
    rw [hsz]
    exact Nat.mod_eq_of_lt hroom
  refine ⟨h2, l2, hrun, wellFormed_of_linked hl2 ?_ (by rw [hsz2]; exact hroom), hsz2, hfr,
    hframe⟩
  have hi2 : i ≤ nodes.length := by
    rw [← hw.2.2.1]
    exact hi
  rw [hsz2, hw.2.2.1]
  simp only [List.length_append, List.length_cons, List.length_take, List.length_drop]
  omega

/-- Insertion at any index `i ≤ size` of a well-formed list (empty or not) returns; the right
links from the new `root` visit the old nodes with the new node at position `i`, left links
mirrored, and `size` is incremented modulo `UINT_MOD`. -/
theorem insert_at_seg {h : Heap α} {l : LinkedList} {nodes : List (Nat × α)} (v : α)
    (i : Nat) (hw : WellFormed h l nodes) (hi : i ≤ l.size) :
    ∃ h2 l2, insert_at h l v i = .ok (h2, l2) ∧
      Seg h2 none l2.root (nodes.take i ++ (h.fresh, v) :: nodes.drop i) none ∧
      l2.size = (l.size + 1) % UINT_MOD := by
  by_cases hne : nodes = []
  · subst hne
    have hl := WellFormed.nil_iff.1 hw
    subst hl
    have h0 : i = 0 := by
      simpa [LinkedList.empty, DEFAULT_SIZE] using hi
    subst h0
    refine ⟨_, _, insert_at_front_empty h v, ?_, rfl⟩
    exact ⟨rfl, none, Heap.read_alloc_fresh _ _, rfl⟩
  · obtain ⟨h2, l2, hrun, hl2, hsz, _⟩ := insert_at_nonempty_linked v i hw hne hi
    exact ⟨h2, l2, hrun, hl2.1, hsz⟩

/-- The clearing loop on a well-formed list: it does what `size` successive `pop_back` calls
do, runs once per node, ends in the empty state with every node of the list deleted, and
only touches the list's own cells. -/
theorem clear_loop_wf {h : Heap α} {l : LinkedList} {nodes : List (Nat × α)} (fuel : Nat)
    (hw : WellFormed h l nodes) (hfuel : nodes.length ≤ fuel) :
    ∃ h2, clear_loop fuel h l = .ok (h2, LinkedList.empty, nodes.length) ∧
      h2.fresh = h.fresh ∧ (∀ a, a ∉ nodes.map Prod.fst → h2.read a = h.read a) ∧
      (∀ a ∈ nodes.map Prod.fst, h2.read a = none) ∧
      ∃ outs, pop_back_n nodes.length h l = .ok (h2, LinkedList.empty, outs) := by
  induction fuel generalizing h l nodes with
  | zero =>
    have hnil : nodes = [] := List.length_eq_zero.1 (Nat.le_zero.1 hfuel)
    subst hnil
    have hl := WellFormed.nil_iff.1 hw
    subst hl
    exact ⟨h, rfl, rfl, fun _ _ => rfl, by simp, [], rfl⟩
  | succ fuel ih =>
    rcases List.eq_nil_or_concat nodes with rfl | ⟨xs, ⟨t, v⟩, rfl⟩
    · have hl := WellFormed.nil_iff.1 hw
      subst hl
      exact ⟨h, rfl, rfl, fun _ _ => rfl, by simp, [], rfl⟩
    · rw [List.concat_eq_append] at hw hfuel ⊢
      have hpos : 0 < l.size := by
        rw [hw.2.2.1]
        simp
      have htnot : t ∉ xs.map Prod.fst := (WellFormed.snoc_inv hw).2.2.2.2
      obtain ⟨h1, l1, hp, hw1, _, hfr1, hfree1, hframe1⟩ := pop_back_wf hw
      obtain ⟨h2, hrun, hfr2, hframe2, hfree2, outs, hpops⟩ := ih hw1 (by simpa using hfuel)
      refine ⟨h2, ?_, by rw [hfr2, hfr1], ?_, ?_, v :: outs, ?_⟩
      · simp only [clear_loop, hpos, if_true, hp, hrun]
        simp
      · intro a ha
        rw [hframe2 a (fun hmem => ha (by simp at hmem ⊢; exact Or.inl hmem)), hframe1 a ha]
      · intro a ha
        simp only [List.map_append, List.map_cons, List.map_nil, List.mem_append,
          List.mem_singleton] at ha
        rcases ha with ha | ha
        · exact hfree2 a ha
        · subst ha
          rw [hframe2 a htnot, hfree1]
      · rw [List.length_append, List.length_singleton]
        simp only [pop_back_n, hp, hpops]

/-- The copying loop: walking a chain `rest` from `current` while appending to a well-formed
list that owns none of the chain's nodes runs once per chain node, appends nodes with the
chain's values at addresses that were unused before, and leaves all other live cells alone. -/
theorem copy_loop_wf {h : Heap α} {l : LinkedList} {nodes rest : List (Nat × α)}
    {p current : Ptr} (fuel : Nat) (hw : WellFormed h l nodes)
    (hchain : Seg h p current rest none)
    (hdisj : ∀ a ∈ rest.map Prod.fst, a ∉ nodes.map Prod.fst) (hfuel : rest.length ≤ fuel)
    (hroom : l.size + rest.length < UINT_MOD) :
    ∃ h2 l2 news, copy_loop fuel h l current = .ok (h2, l2, rest.length) ∧
      WellFormed h2 l2 (nodes ++ news) ∧ news.map Prod.snd = rest.map Prod.snd ∧
      (∀ a ∈ news.map Prod.fst, h.fresh ≤ a) ∧
      (∀ a, a ∉ nodes.map Prod.fst → a < h.fresh → h2.read a = h.read a) ∧
      push_back_all h l (rest.map Prod.snd) = .ok (h2, l2) := by
  induction fuel generalizing h l nodes rest p current with
  | zero =>
    have hnil : rest = [] := List.length_eq_zero.1 (Nat.le_zero.1 hfuel)
    subst hnil
    simp only [Seg] at hchain
    subst hchain
    exact ⟨h, l, [], rfl, by simpa using hw, rfl, by simp, fun _ _ _ => rfl, rfl⟩
  | succ fuel ih =>
    match rest, hchain, hdisj, hfuel, hroom with
    | [], hchain, _, _, _ =>
      simp only [Seg] at hchain
      subst hchain
      exact ⟨h, l, [], rfl, by simpa using hw, rfl, by simp, fun _ _ _ => rfl, rfl⟩
    | (c, v) :: rest2, hchain, hdisj, hfuel, hroom =>
      have hroom1 : l.size + 1 < UINT_MOD := by
        simp only [List.length_cons] at hroom
        omega
      have hlive := seg_live hchain
      have hnd := seg_nodup hchain
      obtain ⟨hcur, r, hrc, hrest⟩ := hchain
      subst hcur
      rw [List.map_cons, List.nodup_cons] at hnd
      obtain ⟨h1, l1, hp, hw1, hsz1, hfr1, hframe1⟩ := push_back_wf v hw hroom1
      have hc1 : h1.read c = some ⟨p, r, v⟩ := by
        rw [hframe1 c (hdisj c (by simp)) (Nat.ne_of_lt (Heap.read_lt hrc)), hrc]
      have hchain1 : Seg h1 (some c) r rest2 none := by
        refine seg_frame (fun a ha => ?_) hrest
        exact hframe1 a (hdisj a (by simp at ha ⊢; exact Or.inr ha))
          (Nat.ne_of_lt (hlive a (by simp at ha ⊢; exact Or.inr ha)))
      have hdisj1 : ∀ a ∈ rest2.map Prod.fst, a ∉ (nodes ++ [(h.fresh, v)]).map Prod.fst := by
        intro a ha hmem
        simp only [List.map_append, List.map_cons, List.map_nil, List.mem_append,
          List.mem_singleton] at hmem
        rcases hmem with hmem | hmem
        · exact hdisj a (by simp at ha ⊢; exact Or.inr ha) hmem
        · exact absurd hmem (Nat.ne_of_lt (hlive a (by simp at ha ⊢; exact Or.inr ha)))
      obtain ⟨h2, l2, news, hrun, hw2, hmap, hnew, hframe2, hpush⟩ :=
        ih hw1 hchain1 hdisj1 (by simpa using hfuel)
          (by rw [hsz1]; simp only [List.length_cons] at hroom; omega)
      refine ⟨h2, l2, (h.fresh, v) :: news, ?_, by simpa using hw2, by simp [hmap], ?_, ?_, ?_⟩
      · simp only [copy_loop, hrc, hp, hc1, hrun]
        simp
      · intro a ha
        simp only [List.map_cons, List.mem_cons] at ha
        rcases ha with rfl | ha
        · exact le_refl _
        · have := hnew a ha
          omega
      · intro a ha hlt
        have hne : a ≠ h.fresh := Nat.ne_of_lt hlt
        rw [hframe2 a (by simp [ha, hne]) (by omega), hframe1 a ha hne]
      · simp only [List.map_cons, push_back_all, hp, hpush]

/-- Copy-assignment between two distinct well-formed lists that own disjoint nodes: it
returns, `this` is well-formed with fresh nodes holding `other`'s values, and every cell
that was live before and is not one of `this`'s old nodes is unchanged. -/
theorem assign_wf {h : Heap α} {A B : LinkedList} {nodesA nodesB : List (Nat × α)}
    (fuel thisAddr otherAddr : Nat) (hne : thisAddr ≠ otherAddr)
    (hA : WellFormed h A nodesA) (hB : WellFormed h B nodesB)
    (hdisj : ∀ a ∈ nodesA.map Prod.fst, a ∉ nodesB.map Prod.fst)
    (hfA : A.size ≤ fuel) (hfB : B.size ≤ fuel) :
    ∃ h2 B2 news, assign fuel h thisAddr otherAddr B A = .ok (h2, B2) ∧
      WellFormed h2 B2 news ∧ news.map Prod.snd = nodesA.map Prod.snd ∧
      WellFormed h2 A nodesA ∧ (∀ a ∈ news.map Prod.fst, a ∉ nodesA.map Prod.fst) ∧
      ∀ a, a ∉ nodesB.map Prod.fst → a < h.fresh → h2.read a = h.read a := by
  obtain ⟨h1, hclear, hfr1, hframe1, _⟩ :=
    clear_loop_wf fuel hB (by rw [← hB.2.2.1]; exact hfB)
  have hA1 : WellFormed h1 A nodesA :=
    ⟨seg_frame (fun a ha => hframe1 a (hdisj a ha)) hA.1, hA.2.1, hA.2.2⟩
  have hroomA : LinkedList.empty.size + nodesA.length < UINT_MOD := by
    rw [← hA.2.2.1]
    simpa [LinkedList.empty, DEFAULT_SIZE] using hA.2.2.2
  obtain ⟨h2, B2, news, hcopy, hw2, hmap, hnew, hframe2, _⟩ :=
    copy_loop_wf fuel (WellFormed.nil_iff.2 rfl : WellFormed h1 LinkedList.empty []) hA1.1 (by simp)
      (by rw [← hA.2.2.1]; exact hfA) hroomA
  have hliveA := seg_live hA1.1
  refine ⟨h2, B2, news, ?_, by simpa using hw2, hmap, ?_, ?_, ?_⟩
  · simp only [assign, hne, ne_eq, not_false_eq_true, if_true, hclear, hcopy]
  · exact ⟨seg_frame (fun a ha => hframe2 a (by simp) (hliveA a ha)) hA1.1, hA.2.1, hA.2.2⟩
  · intro a ha hmem
    have h1 := hnew a ha
    have h2 := hliveA a hmem
    omega
  · intro a ha hlt
    rw [hframe2 a (by simp) (by omega), hframe1 a ha]

/-- Cells outside a well-formed list and below the allocation pointer are not written by
`insert_at`, whatever the index. -/
theorem insert_at_frame {h : Heap α} {l : LinkedList} {nodes : List (Nat × α)} (v : α)
    (i : Nat) (hw : WellFormed h l nodes) (hi : i ≤ l.size) :
    ∃ h2 l2, insert_at h l v i = .ok (h2, l2) ∧
      ∀ a, a ∉ nodes.map Prod.fst → a ≠ h.fresh → h2.read a = h.read a := by
  by_cases hne : nodes = []
  · subst hne
    have hl := WellFormed.nil_iff.1 hw
    subst hl
    have h0 : i = 0 := by
      simpa [LinkedList.empty, DEFAULT_SIZE] using hi
    subst h0
    refine ⟨_, _, insert_at_front_empty h v, fun a _ hfresh => ?_⟩
    rw [Heap.read_alloc, if_neg hfresh]
  · obtain ⟨h2, l2, hrun, _, _, _, hframe⟩ := insert_at_nonempty_linked v i hw hne hi
    exact ⟨h2, l2, hrun, hframe⟩

theorem exampleList_wf : WellFormed exampleHeap exampleList [(0, 1), (1, 2)] :=
  ⟨⟨rfl, some 1, rfl, rfl, none, rfl, rfl⟩, rfl, rfl, by decide⟩

theorem pairHeap_wf : WellFormed pairHeap exampleList [(0, 1), (1, 2)] :=
  ⟨⟨rfl, some 1, rfl, rfl, none, rfl, rfl⟩, rfl, rfl, by decide⟩

theorem pairOther_wf : WellFormed pairHeap pairOther [(2, 5)] :=
  ⟨⟨rfl, none, rfl, rfl⟩, rfl, rfl, by decide⟩

/-! ## Frame of the mutators on an arbitrary (possibly ill-formed) list -/

theorem Heap.read_store (h : Heap α) (a b : Nat) (nd : Node α) :
    (h.store a nd).read b = if b = a ∧ a < h.fresh then some nd else h.read b := by
  by_cases hba : b = a
  · subst hba
    by_cases hlt : b < h.fresh
    · rw [if_pos ⟨rfl, hlt⟩, Heap.read_store_same _ hlt]
    · rw [if_neg (fun hc => hlt hc.2)]
      unfold Heap.read Heap.store
      unfold Heap.fresh at hlt
      rw [List.getElem?_eq_none (by simp; omega), List.getElem?_eq_none (by omega)]
  · rw [if_neg (fun hc => hba hc.1), Heap.read_store_ne _ _ hba]

theorem ptrIn_none (S : Nat → Prop) : PtrIn S none := by
  intro a ha
  exact absurd ha (by simp)

theorem ptrIn_some {S : Nat → Prop} {a : Nat} (ha : S a) : PtrIn S (some a) := by
  intro b hb
  rw [← Option.some.inj hb]
  exact ha

theorem ptrIn_mono {S T : Nat → Prop} {p : Ptr} (hST : ∀ a, S a → T a) (hp : PtrIn S p) :
    PtrIn T p := fun a ha => hST a (hp a ha)

theorem linksIn_alloc {h : Heap α} {S : Nat → Prop} {nd : Node α} (hl : LinksIn h S)
    (hleft : PtrIn S nd.left) (hright : PtrIn S nd.right) :
    LinksIn (h.alloc nd) (fun a => S a ∨ a = h.fresh) := by
  intro a x hS hr
  rw [Heap.read_alloc] at hr
  by_cases hf : a = h.fresh
  · rw [if_pos hf] at hr
    rw [← Option.some.inj hr]
    exact ⟨ptrIn_mono (fun _ => Or.inl) hleft, ptrIn_mono (fun _ => Or.inl) hright⟩
  · rw [if_neg hf] at hr
    obtain ⟨h1, h2⟩ := hl a x (hS.resolve_right hf) hr
    exact ⟨ptrIn_mono (fun _ => Or.inl) h1, ptrIn_mono (fun _ => Or.inl) h2⟩

theorem linksIn_store {h : Heap α} {S : Nat → Prop} {nd : Node α} (a : Nat) (hl : LinksIn h S)
    (hleft : PtrIn S nd.left) (hright : PtrIn S nd.right) : LinksIn (h.store a nd) S := by
  intro b x hS hr
  rw [Heap.read_store] at hr
  by_cases hc : b = a ∧ a < h.fresh
  · rw [if_pos hc] at hr
    rw [← Option.some.inj hr]
    exact ⟨hleft, hright⟩
  · rw [if_neg hc] at hr
    exact hl b x hS hr

theorem linksIn_free {h : Heap α} {S : Nat → Prop} (a : Nat) (hl : LinksIn h S) :
    LinksIn (h.free a) S := by
  intro b x hS hr
  by_cases hba : b = a
  · rw [hba, Heap.read_free_same] at hr
    exact absurd hr (by simp)
  · rw [Heap.read_free_ne _ hba] at hr
    exact hl b x hS hr

theorem advance_ptrIn {h : Heap α} {S : Nat → Prop} (hl : LinksIn h S) (k : Nat) {p q : Ptr}
    (hp : PtrIn S p) (hadv : advance h k p = .ok q) : PtrIn S q := by
  induction k generalizing p with
  | zero =>
    simp only [advance] at hadv
    rw [← Except.ok.inj hadv]
    exact hp
  | succ k ih =>
    cases p with
    | none => simp [advance, deref] at hadv
    | some a =>
      cases hr : h.read a with
      | none => simp [advance, deref, hr] at hadv
      | some nd =>
        simp only [advance, deref, hr] at hadv
        exact ih (hl a nd (hp a rfl) hr).2 hadv

theorem push_back_closed {h h2 : Heap α} {l l2 : LinkedList} {S : Nat → Prop} {v : α}
    (hc : Closed h l S) (hrun : push_back h l v = .ok (h2, l2)) :
    Closed h2 l2 (fun a => S a ∨ a = h.fresh) ∧ h2.fresh = h.fresh + 1 ∧
      ∀ a, ¬ S a → a ≠ h.fresh → h2.read a = h.read a := by
  obtain ⟨hroot, hback, hlinks⟩ := hc
  cases hb : l.back with
  | none =>
    simp only [push_back, hb, Except.ok.injEq, Prod.mk.injEq] at hrun
    obtain ⟨rfl, rfl⟩ := hrun
    refine ⟨⟨ptrIn_some (Or.inr rfl), ptrIn_some (Or.inr rfl),
      linksIn_alloc hlinks (ptrIn_none S) (ptrIn_none S)⟩, by simp, fun a _ hne => ?_⟩
    rw [Heap.read_alloc, if_neg hne]
  | some b =>
    have hSb : S b := hback b hb
    have hl1 : LinksIn (h.alloc ⟨some b, none, v⟩) (fun a => S a ∨ a = h.fresh) :=
      linksIn_alloc hlinks (ptrIn_some hSb) (ptrIn_none S)
    cases hr1 : (h.alloc ⟨some b, none, v⟩).read b with
    | none => simp [push_back, hb, hr1] at hrun
    | some nb =>
      have hl2 : LinksIn ((h.alloc ⟨some b, none, v⟩).store b ⟨nb.left, some h.fresh, nb.value⟩)
          (fun a => S a ∨ a = h.fresh) :=
        linksIn_store b hl1 (hl1 b nb (Or.inl hSb) hr1).1 (ptrIn_some (Or.inr rfl))
      cases hr2 : ((h.alloc ⟨some b, none, v⟩).store b
          ⟨nb.left, some h.fresh, nb.value⟩).read b with
      | none => simp [push_back, hb, hr1, hr2] at hrun
      | some nb2 =>
        simp only [push_back, hb, hr1, hr2, Except.ok.injEq, Prod.mk.injEq] at hrun
        obtain ⟨rfl, rfl⟩ := hrun
        refine ⟨⟨ptrIn_mono (fun _ => Or.inl) hroot, (hl2 b nb2 (Or.inl hSb) hr2).2, hl2⟩,
          by simp, fun a ha hne => ?_⟩
        have hab : a ≠ b := fun e => ha (e ▸ hSb)
        rw [Heap.read_store_ne _ _ hab, Heap.read_alloc, if_neg hne]

theorem pop_back_closed {h h2 : Heap α} {l l2 : LinkedList} {S : Nat → Prop} {x : α}
    (hc : Closed h l S) (hrun : pop_back h l = .ok (h2, l2, x)) :
    Closed h2 l2 S ∧ h2.fresh = h.fresh ∧ ∀ a, ¬ S a → h2.read a = h.read a := by
  obtain ⟨hroot, hback, hlinks⟩ := hc
  by_cases hpos : 0 < l.size
  · cases hb : l.back with
    | none => simp [pop_back, hpos, hb, deref] at hrun
    | some t =>
      have hSt : S t := hback t hb
      cases hrt : h.read t with
      | none => simp [pop_back, hpos, hb, deref, hrt] at hrun
      | some nt =>
        cases hleft : nt.left with
        | none =>
          simp only [pop_back, hpos, if_true, hb, deref, hrt, hleft, Except.ok.injEq,
            Prod.mk.injEq] at hrun
          obtain ⟨rfl, rfl, _⟩ := hrun
          refine ⟨⟨ptrIn_none S, ptrIn_none S, linksIn_free t hlinks⟩, by simp,
            fun a ha => ?_⟩
          exact Heap.read_free_ne _ (fun e => ha (e ▸ hSt))
        | some b =>
          have hSb : S b := (hlinks t nt hSt hrt).1 b hleft
          cases hrb : h.read b with
          | none => simp [pop_back, hpos, hb, deref, hrt, hleft, hrb] at hrun
          | some nb =>
            simp only [pop_back, hpos, if_true, hb, deref, hrt, hleft, hrb, Except.ok.injEq,
              Prod.mk.injEq] at hrun
            obtain ⟨rfl, rfl, _⟩ := hrun
            refine ⟨⟨hroot, ptrIn_some hSb,
              linksIn_free t (linksIn_store b hlinks (hlinks b nb hSb hrb).1 (ptrIn_none S))⟩,
              by simp, fun a ha => ?_⟩
            have hat : a ≠ t := fun e => ha (e ▸ hSt)
            have hab : a ≠ b := fun e => ha (e ▸ hSb)
            rw [Heap.read_free_ne _ hat, Heap.read_store_ne _ _ hab]
  · simp [pop_back, hpos] at hrun

theorem insert_at_closed {h h2 : Heap α} {l l2 : LinkedList} {S : Nat → Prop} {v : α}
    {i : Nat} (hc : Closed h l S) (hrun : insert_at h l v i = .ok (h2, l2)) :
    Closed h2 l2 (fun a => S a ∨ a = h.fresh) ∧ h2.fresh = h.fresh + 1 ∧
      ∀ a, ¬ S a → a ≠ h.fresh → h2.read a = h.read a := by
  have hc0 := hc
  obtain ⟨hroot, hback, hlinks⟩ := hc
  have hroot2 : PtrIn (fun a => S a ∨ a = h.fresh) l.root := ptrIn_mono (fun _ => Or.inl) hroot
  have hback2 : PtrIn (fun a => S a ∨ a = h.fresh) l.back := ptrIn_mono (fun _ => Or.inl) hback
  by_cases hle : i ≤ l.size
  · by_cases h0 : i = 0
    · subst h0
      cases hr : l.root with
      | none =>
        simp only [insert_at, Nat.zero_le, if_true, hr, Except.ok.injEq, Prod.mk.injEq] at hrun
        obtain ⟨rfl, rfl⟩ := hrun
        refine ⟨⟨ptrIn_some (Or.inr rfl), hback2,
          linksIn_alloc hlinks (ptrIn_none S) (ptrIn_none S)⟩, by simp, fun a _ hne => ?_⟩
        rw [Heap.read_alloc, if_neg hne]
      | some r =>
        have hSr : S r := hroot r hr
        have hl1 : LinksIn (h.alloc ⟨none, some r, v⟩) (fun a => S a ∨ a = h.fresh) :=
          linksIn_alloc hlinks (ptrIn_none S) (ptrIn_some hSr)
        cases hr1 : (h.alloc ⟨none, some r, v⟩).read r with
        | none => simp [insert_at, hr, hr1] at hrun
        | some nr =>
          simp only [insert_at, Nat.zero_le, if_true, hr, hr1, Except.ok.injEq,
            Prod.mk.injEq] at hrun
          obtain ⟨rfl, rfl⟩ := hrun
          refine ⟨⟨ptrIn_some (Or.inr rfl), hback2,
            linksIn_store r hl1 (ptrIn_some (Or.inr rfl)) (hl1 r nr (Or.inl hSr) hr1).2⟩,
            by simp, fun a ha hne => ?_⟩
          have har : a ≠ r := fun e => ha (e ▸ hSr)
          rw [Heap.read_store_ne _ _ har, Heap.read_alloc, if_neg hne]
    · by_cases hend : i = l.size
      · subst hend
        simp only [insert_at, le_refl, if_true, h0, if_false] at hrun
        exact push_back_closed hc0 hrun
      · cases hadv : advance h (i - 1) l.root with
        | error e => simp [insert_at, hle, h0, hend, hadv] at hrun
        | ok node =>
          have hnode : PtrIn S node := advance_ptrIn hlinks (i - 1) hroot hadv
          cases node with
          | none => simp [insert_at, hle, h0, hend, hadv, deref] at hrun
          | some n =>
            have hSn : S n := hnode n rfl
            cases hrn : h.read n with
            | none => simp [insert_at, hle, h0, hend, hadv, deref, hrn] at hrun
            | some nd =>
              have hnd := hlinks n nd hSn hrn
              have hl1 : LinksIn (h.alloc ⟨some n, nd.right, v⟩)
                  (fun a => S a ∨ a = h.fresh) :=
                linksIn_alloc hlinks (ptrIn_some hSn) hnd.2
              have hfresh : PtrIn (fun a => S a ∨ a = h.fresh) (some h.fresh) :=
                ptrIn_some (Or.inr rfl)
              cases hright : nd.right with
              | none =>
                simp only [insert_at, hle, if_true, h0, if_false, hend, hadv, deref, hrn,
                  hright, Except.ok.injEq, Prod.mk.injEq] at hrun
                obtain ⟨rfl, rfl⟩ := hrun
                rw [hright] at hl1
                refine ⟨⟨hroot2, hback2,
                  linksIn_store n hl1 (ptrIn_mono (fun _ => Or.inl) hnd.1) hfresh⟩,
                  by simp, fun a ha hne => ?_⟩
                have han : a ≠ n := fun e => ha (e ▸ hSn)
                rw [Heap.read_store_ne _ _ han, Heap.read_alloc, if_neg hne]
              | some r =>
                have hSr : S r := hnd.2 r hright
                rw [hright] at hl1
                cases hr1 : (h.alloc ⟨some n, some r, v⟩).read r with
                | none =>
                  simp [insert_at, hle, h0, hend, hadv, deref, hrn, hright, hr1] at hrun
                | some nr =>
                  have hl2 : LinksIn ((h.alloc ⟨some n, some r, v⟩).store r
                      ⟨some h.fresh, nr.right, nr.value⟩) (fun a => S a ∨ a = h.fresh) :=
                    linksIn_store r hl1 hfresh (hl1 r nr (Or.inl hSr) hr1).2
                  cases hr2 : ((h.alloc ⟨some n, some r, v⟩).store r
                      ⟨some h.fresh, nr.right, nr.value⟩).read n with
                  | none =>
                    simp [insert_at, hle, h0, hend, hadv, deref, hrn, hright, hr1, hr2] at hrun
                  | some nd2 =>
                    simp only [insert_at, hle, if_true, h0, if_false, hend, hadv, deref, hrn,
                      hright, hr1, hr2, Except.ok.injEq, Prod.mk.injEq] at hrun
                    obtain ⟨rfl, rfl⟩ := hrun
                    refine ⟨⟨hroot2, hback2,
                      linksIn_store n hl2 (hl2 n nd2 (Or.inl hSn) hr2).1 hfresh⟩,
                      by simp, fun a ha hne => ?_⟩
                    have han : a ≠ n := fun e => ha (e ▸ hSn)
                    have har : a ≠ r := fun e => ha (e ▸ hSr)
                    rw [Heap.read_store_ne _ _ han, Heap.read_store_ne _ _ har,
                      Heap.read_alloc, if_neg hne]
  · simp [insert_at, hle] at hrun

/-- Frame of a run of mutator calls: cells that were live before the run and lie outside
a closed address set of the list are never written, however the run goes. -/
theorem run_calls_frame {h : Heap α} {l : LinkedList} {S : Nat → Prop} (cs : List (Call α))
    {h3 : Heap α} {l3 : LinkedList} {out : List α} (hc : Closed h l S)
    (hrun : run_calls h l cs = .ok (h3, l3, out)) :
    ∀ a, ¬ S a → a < h.fresh → h3.read a = h.read a := by
  induction cs generalizing h l S out h3 l3 with
  | nil =>
    simp only [run_calls, Except.ok.injEq, Prod.mk.injEq] at hrun
    obtain ⟨rfl, _, _⟩ := hrun
    exact fun _ _ _ => rfl
  | cons c cs ih =>
    intro a ha hlt
    have hne : a ≠ h.fresh := Nat.ne_of_lt hlt
    have hnS : ¬ (S a ∨ a = h.fresh) := fun hor => hor.elim ha hne
    cases c with
    | push_back v =>
      cases hp : push_back h l v with
      | error e => simp [run_calls, hp] at hrun
      | ok r =>
        obtain ⟨h1, l1⟩ := r
        simp only [run_calls, hp] at hrun
        obtain ⟨hc1, hfr, hframe⟩ := push_back_closed hc hp
        rw [ih hc1 hrun a hnS (by omega), hframe a ha hne]
    | insert_at v i =>
      cases hp : insert_at h l v i with
      | error e => simp [run_calls, hp] at hrun
      | ok r =>
        obtain ⟨h1, l1⟩ := r
        simp only [run_calls, hp] at hrun
        obtain ⟨hc1, hfr, hframe⟩ := insert_at_closed hc hp
        rw [ih hc1 hrun a hnS (by omega), hframe a ha hne]
    | pop_back =>
      cases hp : pop_back h l with
      | error e => simp [run_calls, hp] at hrun
      | ok r =>
        obtain ⟨h1, l1, x⟩ := r
        obtain ⟨hc1, hfr, hframe⟩ := pop_back_closed hc hp
        cases hrest : run_calls h1 l1 cs with
        | error e => simp [run_calls, hp, hrest] at hrun
        | ok r2 =>
          obtain ⟨h4, l4, out4⟩ := r2
          simp only [run_calls, hp, hrest, Except.ok.injEq, Prod.mk.injEq] at hrun
          obtain ⟨rfl, rfl, _⟩ := hrun
          rw [ih hc1 hrest a ha (by omega), hframe a ha]

theorem lastAddr_mem (p : Ptr) (nodes : List (Nat × α)) {b : Nat}
    (hb : lastAddr p nodes = some b) : b ∈ nodes.map Prod.fst ∨ p = some b := by
  induction nodes generalizing p with
  | nil => exact Or.inr hb
  | cons x xs ih =>
    obtain ⟨a, v⟩ := x
    rcases ih (some a) hb with hmem | heq
    · exact Or.inl (by simp at hmem ⊢; exact Or.inr hmem)
    · exact Or.inl (by simp [Option.some.inj heq])

theorem seg_head_mem {h : Heap α} {p c n : Ptr} {nodes : List (Nat × α)} {b : Nat}
    (hs : Seg h p c nodes n) (hc : c = some b) : b ∈ nodes.map Prod.fst ∨ n = some b := by
  cases nodes with
  | nil =>
    simp only [Seg] at hs
    exact Or.inr (hs ▸ hc)
  | cons x xs =>
    obtain ⟨a, v⟩ := x
    rw [hs.1] at hc
    exact Or.inl (by simp [Option.some.inj hc])

theorem seg_links {h : Heap α} {p c n : Ptr} {nodes : List (Nat × α)}
    (hs : Seg h p c nodes n) (a : Nat) (ha : a ∈ nodes.map Prod.fst) (nd : Node α)
    (hr : h.read a = some nd) :
    (∀ b, nd.left = some b → b ∈ nodes.map Prod.fst ∨ p = some b) ∧
      (∀ b, nd.right = some b → b ∈ nodes.map Prod.fst ∨ n = some b) := by
  induction nodes generalizing p c with
  | nil => simp at ha
  | cons x xs ih =>
    obtain ⟨a0, v0⟩ := x
    obtain ⟨_, r, hr0, hrest⟩ := hs
    simp only [List.map_cons, List.mem_cons] at ha
    by_cases ha0 : a = a0
    · subst ha0
      rw [hr0] at hr
      rw [← Option.some.inj hr]
      refine ⟨fun b hb => Or.inr hb, fun b hb => ?_⟩
      rcases seg_head_mem hrest hb with hmem | hn
      · exact Or.inl (by simp at hmem ⊢; exact Or.inr hmem)
      · exact Or.inr hn
    · obtain ⟨h1, h2⟩ := ih hrest (ha.resolve_left ha0)
      refine ⟨fun b hb => ?_, fun b hb => ?_⟩
      · rcases h1 b hb with hmem | heq
        · exact Or.inl (by simp at hmem ⊢; exact Or.inr hmem)
        · exact Or.inl (by simp [Option.some.inj heq])
      · rcases h2 b hb with hmem | heq
        · exact Or.inl (by simp at hmem ⊢; exact Or.inr hmem)
        · exact Or.inr heq

/-- The nodes of a well-formed list are a closed address set for it. -/
theorem closed_of_wf {h : Heap α} {l : LinkedList} {nodes : List (Nat × α)}
    (hw : WellFormed h l nodes) : Closed h l (fun a => a ∈ nodes.map Prod.fst) := by
  obtain ⟨hseg, hback, _⟩ := hw
  refine ⟨fun b hb => ?_, fun b hb => ?_, fun a nd ha hr => ⟨fun b hb => ?_, fun b hb => ?_⟩⟩
  · exact (seg_head_mem hseg hb).resolve_right (by simp)
  · rw [hback] at hb
    exact (lastAddr_mem none nodes hb).resolve_right (by simp)
  · exact ((seg_links hseg a ha nd hr).1 b hb).resolve_right (by simp)
  · exact ((seg_links hseg a ha nd hr).2 b hb).resolve_right (by simp)

/-! ## Lists at the end of the range of `unsigned int` -/

theorem empty_linked (h : Heap α) : Linked h LinkedList.empty ([] : List (Nat × α)) :=
  ⟨rfl, rfl⟩

theorem empty_wf (h : Heap α) : WellFormed h LinkedList.empty ([] : List (Nat × α)) :=
  WellFormed.nil_iff.2 rfl

/-- From the empty list, `push_back` of fewer than `UINT_MOD` values returns a well-formed
list whose nodes hold these values. -/
theorem push_back_all_empty_wf (h0 : Heap α) (vs : List α) (hlen : vs.length < UINT_MOD) :
    ∃ h l nodes, push_back_all h0 LinkedList.empty vs = .ok (h, l) ∧ WellFormed h l nodes ∧
      nodes.map Prod.snd = vs ∧ l.size = vs.length := by
  have hroom : LinkedList.empty.size + vs.length < UINT_MOD := by
    simpa [LinkedList.empty, DEFAULT_SIZE] using hlen
  obtain ⟨h, l, news, hrun, hw, hmap⟩ := push_back_all_wf vs (empty_wf h0) hroom
  simp only [List.nil_append] at hw
  refine ⟨h, l, news, hrun, hw, hmap, ?_⟩
  rw [hw.2.2.1, ← hmap]
  simp

/-- From the empty list, `n < UINT_MOD` calls `push_back(x)` return a well-formed list with
`size == n`. -/
theorem push_back_all_replicate (h0 : Heap α) (x : α) (n : Nat) (hn : n < UINT_MOD) :
    ∃ h l nodes, push_back_all h0 LinkedList.empty (List.replicate n x) = .ok (h, l) ∧
      WellFormed h l nodes ∧ l.size = n := by
  obtain ⟨h, l, nodes, hrun, hw, _, hsz⟩ :=
    push_back_all_empty_wf h0 (List.replicate n x) (by rw [List.length_replicate]; exact hn)
  rw [List.length_replicate] at hsz
  exact ⟨h, l, nodes, hrun, hw, hsz⟩

/-- From the empty list, `UINT_MOD` calls `push_back(x)` return a list with `size == 0`. -/
theorem push_back_all_replicate_wrap (h0 : Heap α) (x : α) :
    ∃ h l, push_back_all h0 LinkedList.empty (List.replicate UINT_MOD x) = .ok (h, l) ∧
      l.size = 0 := by
  obtain ⟨h, l, _, hrun, _, _, hsz, _⟩ :=
    push_back_all_linked (List.replicate UINT_MOD x) (empty_linked h0)
      (by decide : LinkedList.empty.size < UINT_MOD)
  refine ⟨h, l, hrun, ?_⟩
  rw [hsz, List.length_replicate]
  simp [LinkedList.empty, DEFAULT_SIZE]

/-! ## Claims -/

/-- C1 (as stated, fails on the code): after 4294967296 calls `push_back(0)` from the empty
list `size` has wrapped: `length()` is 0, not the number of values pushed, and
`operator[](0)` fails its assertion. -/
theorem push_back_all_wraps_length :
    ∃ h l, push_back_all (Heap.empty : Heap Nat) LinkedList.empty
        (List.replicate 4294967296 0) = .ok (h, l) ∧
      length l = 0 ∧ length l ≠ (List.replicate 4294967296 (0 : Nat)).length ∧
      index h l 0 = .error .assertion := by
  obtain ⟨h, l, hrun, hsz⟩ := push_back_all_replicate_wrap (Heap.empty : Heap Nat) 0
  refine ⟨h, l, hrun, hsz, ?_, ?_⟩
  · rw [List.length_replicate, length, hsz]
    decide
  · simp [index, hsz]

/-- C1 (amended): for every sequence of values `vs` with `|vs| < 2^32`, starting from the
default-constructed empty list (in any heap) and calling `push_back` on each value of `vs` in
order returns a list with `length() == |vs|` and `operator[](i) == vs[i]` for every
`i < |vs|`. -/
theorem push_back_all_length_index (h0 : Heap α) (vs : List α) (hlen : vs.length < UINT_MOD) :
    ∃ h l, push_back_all h0 LinkedList.empty vs = .ok (h, l) ∧ length l = vs.length ∧
      ∀ (i : Nat) (hi : i < vs.length), index h l i = .ok (vs.get ⟨i, hi⟩) := by
  obtain ⟨h, l, news, hrun, hw, hmap, hsz⟩ := push_back_all_empty_wf h0 vs hlen
  have hf : Forward h l vs := by
    rw [← hmap]
    simpa using hw.forward
  exact ⟨h, l, hrun, hsz, fun i hi => index_of_forward hf i hi (by rw [hsz]; exact hi)⟩

theorem push_back_all_length_index_witness :
    [1, 2, 3].length < UINT_MOD ∧
      ∃ h l, push_back_all (Heap.empty : Heap Nat) LinkedList.empty [1, 2, 3] = .ok (h, l) ∧
        length l = [1, 2, 3].length ∧
        ∀ (i : Nat) (hi : i < [1, 2, 3].length), index h l i = .ok ([1, 2, 3].get ⟨i, hi⟩) :=
  ⟨by decide, push_back_all_length_index Heap.empty [1, 2, 3] (by decide)⟩

/-- C2 (fails on the code): from the empty list, `insert_at(7, 0)` then `push_back(8)` are
calls within their preconditions and the sequence model holds `[7, 8]`, but the list answers
`operator[](0) == 8` and `operator[](1)` dereferences a null node; `insert_at(7, 0)` then
`pop_back()` (with `size == 1 > 0`) dereferences the null `back` where the model removes `7`. -/
theorem run_calls_diverges_from_model :
    run_calls (Heap.empty : Heap Nat) LinkedList.empty [.insert_at 7 0, .push_back 8]
        = .ok (⟨[some ⟨none, none, 7⟩, some ⟨none, none, 8⟩]⟩, ⟨some 1, some 1, 2⟩, []) ∧
      model_calls ([] : List Nat) [.insert_at 7 0, .push_back 8] = some ([7, 8], []) ∧
      index (⟨[some ⟨none, none, 7⟩, some ⟨none, none, 8⟩]⟩ : Heap Nat) ⟨some 1, some 1, 2⟩ 0
        = .ok 8 ∧
      index (⟨[some ⟨none, none, 7⟩, some ⟨none, none, 8⟩]⟩ : Heap Nat) ⟨some 1, some 1, 2⟩ 1
        = .error .badDeref ∧
      run_calls (Heap.empty : Heap Nat) LinkedList.empty [.insert_at 7 0, .pop_back]
        = .error .badDeref ∧
      model_calls ([] : List Nat) [.insert_at 7 0, .pop_back] = some ([], [7]) :=
  ⟨rfl, rfl, rfl, rfl, rfl, rfl⟩

/-- C3 (fails on the code): `insert_at(7, 0)` on the empty list returns a list with
`size == 1` and a non-null `root` but a null `back`, so `size == 0 iff back == null` and
`root == null iff back == null` are both false, and the right-link walk from `root` ends at
node 0, which is not `back`. -/
theorem insert_at_empty_breaks_invariants :
    insert_at (Heap.empty : Heap Nat) LinkedList.empty 7 0
        = .ok (⟨[some ⟨none, none, 7⟩]⟩, ⟨some 0, none, 1⟩) ∧
      ¬ ((⟨some 0, none, 1⟩ : LinkedList).size = 0 ↔ (⟨some 0, none, 1⟩ : LinkedList).back = none) ∧
      ¬ ((⟨some 0, none, 1⟩ : LinkedList).root = none ↔ (⟨some 0, none, 1⟩ : LinkedList).back = none) ∧
      Seg (⟨[some ⟨none, none, 7⟩]⟩ : Heap Nat) none (some 0) [(0, 7)] none ∧
      lastAddr none [(0, 7)] ≠ (⟨some 0, none, 1⟩ : LinkedList).back :=
  ⟨rfl, by decide, by decide, ⟨rfl, none, rfl, rfl⟩, by decide⟩

/-- C4 (fails on the code): on the empty list `insert_at(7, length())` and `push_back(7)`
return different list states: `push_back` sets `root` and `back` to the new node,
`insert_at` leaves `back` null. -/
theorem insert_at_length_empty_ne_push_back :
    length LinkedList.empty = 0 ∧
      insert_at (Heap.empty : Heap Nat) LinkedList.empty 7 (length LinkedList.empty)
        = .ok (⟨[some ⟨none, none, 7⟩]⟩, ⟨some 0, none, 1⟩) ∧
      push_back (Heap.empty : Heap Nat) LinkedList.empty 7
        = .ok (⟨[some ⟨none, none, 7⟩]⟩, ⟨some 0, some 0, 1⟩) ∧
      (⟨some 0, none, 1⟩ : LinkedList) ≠ ⟨some 0, some 0, 1⟩ :=
  ⟨rfl, rfl, rfl, by decide⟩

/-- C5 (as stated, fails on the code): on the well-formed list built by 4294967295 calls
`push_back(0)`, `insert_at(7, 0)` returns with `size` wrapped: `length()` is 0, not
`size + 1`, and `operator[](0)` fails its assertion instead of returning 7. -/
theorem insert_at_wraps_length :
    ∃ h l nodes, push_back_all (Heap.empty : Heap Nat) LinkedList.empty
        (List.replicate 4294967295 0) = .ok (h, l) ∧
      WellFormed h l nodes ∧ l.size = 4294967295 ∧
      ∃ h2 l2, insert_at h l 7 0 = .ok (h2, l2) ∧ length l2 = 0 ∧
        length l2 ≠ l.size + 1 ∧ index h2 l2 0 = .error .assertion := by
  obtain ⟨h, l, nodes, hrun, hw, hsz⟩ :=
    push_back_all_replicate (Heap.empty : Heap Nat) 0 4294967295 (by decide)
  obtain ⟨h2, l2, hins, _, hsz2⟩ := insert_at_seg 7 0 hw (Nat.zero_le _)
  have hz : l2.size = 0 := by
    rw [hsz2, hsz]
    decide
  refine ⟨h, l, nodes, hrun, hw, hsz, h2, l2, hins, hz, ?_, ?_⟩
  · rw [length, hz, hsz]
    decide
  · simp [index, hz]

/-- C5 (amended): for every well-formed list with nodes `nodes` (forward element sequence
`nodes.map Prod.snd`), every value `v` and every `i ≤ size`, `insert_at(v, i)` returns and the
forward sequence read from the new `root` is the first `i` old elements, then `v`, then the
remaining old elements; when moreover `size < 2^32 - 1`, `length()` is `size + 1` and, for
`i = 0`, `operator[](0)` is `v` and `operator[](j + 1)` is the old `operator[](j)` (a
returned value) for every old index `j`. -/
theorem insert_at_forward {h : Heap α} {l : LinkedList} {nodes : List (Nat × α)} (v : α)
    (i : Nat) (hw : WellFormed h l nodes) (hi : i ≤ l.size) :
    ∃ h2 l2, insert_at h l v i = .ok (h2, l2) ∧
      Forward h2 l2 ((nodes.map Prod.snd).take i ++ v :: (nodes.map Prod.snd).drop i) ∧
      (l.size + 1 < UINT_MOD →
        length l2 = l.size + 1 ∧
        (i = 0 → index h2 l2 0 = .ok v ∧
          ∀ j, j < l.size → index h2 l2 (j + 1) = index h l j ∧ ∃ x, index h l j = .ok x)) := by
  obtain ⟨h2, l2, hrun, hseg, hsz⟩ := insert_at_seg v i hw hi
  have hf : Forward h2 l2 ((nodes.map Prod.snd).take i ++ v :: (nodes.map Prod.snd).drop i) := by
    have := seg_to_fwd hseg
    simpa [Forward, List.map_take, List.map_drop] using this
  refine ⟨h2, l2, hrun, hf, fun hroom => ?_⟩
  have hsz2 : l2.size = l.size + 1 := by
    rw [hsz]
    exact Nat.mod_eq_of_lt hroom
  refine ⟨hsz2, ?_⟩
  intro h0
  subst h0
  have hlen : l.size = (nodes.map Prod.snd).length := by
    rw [hw.2.2.1]
    simp
  have hf0 : Forward h2 l2 (v :: nodes.map Prod.snd) := by
    simpa using hf
  refine ⟨?_, fun j hj => ?_⟩
  · have := index_of_forward hf0 0 (by simp) (by omega)
    simpa using this
  · have hj2 : j < (nodes.map Prod.snd).length := by omega
    have h1 := index_of_forward hf0 (j + 1) (by simpa using hj2) (by omega)
    have h2 := index_of_forward hw.forward j hj2 hj
    rw [h1, h2]
    exact ⟨by simp, _, rfl⟩

theorem insert_at_forward_witness :
    WellFormed exampleHeap exampleList [(0, 1), (1, 2)] ∧ 0 ≤ exampleList.size ∧
      ∃ h2 l2, insert_at exampleHeap exampleList 9 0 = .ok (h2, l2) ∧
        Forward h2 l2 [9, 1, 2] ∧
        (exampleList.size + 1 < UINT_MOD →
          length l2 = 3 ∧
          (0 = 0 → index h2 l2 0 = .ok 9 ∧
            ∀ j, j < exampleList.size →
              index h2 l2 (j + 1) = index exampleHeap exampleList j ∧
                ∃ x, index exampleHeap exampleList j = .ok x)) :=
  ⟨exampleList_wf, by decide, insert_at_forward 9 0 exampleList_wf (by decide)⟩

/-- C6 (fails on the code): after `insert_at(7, 0)` on the empty list `size` is 1 but `back`
is null, so `pop_back()` within its precondition dereferences a null node; after a following
`push_back(8)` `size` is 2 but one right-step from `root` reaches null, so `operator[](1)`
within its precondition dereferences a null node. -/
theorem accessors_deref_null_after_insert_at_empty :
    insert_at (Heap.empty : Heap Nat) LinkedList.empty 7 0
        = .ok (⟨[some ⟨none, none, 7⟩]⟩, ⟨some 0, none, 1⟩) ∧
      0 < (⟨some 0, none, 1⟩ : LinkedList).size ∧
      (⟨some 0, none, 1⟩ : LinkedList).back = none ∧
      pop_back (⟨[some ⟨none, none, 7⟩]⟩ : Heap Nat) ⟨some 0, none, 1⟩ = .error .badDeref ∧
      push_back (⟨[some ⟨none, none, 7⟩]⟩ : Heap Nat) ⟨some 0, none, 1⟩ 8
        = .ok (⟨[some ⟨none, none, 7⟩, some ⟨none, none, 8⟩]⟩, ⟨some 1, some 1, 2⟩) ∧
      1 < (⟨some 1, some 1, 2⟩ : LinkedList).size ∧
      advance (⟨[some ⟨none, none, 7⟩, some ⟨none, none, 8⟩]⟩ : Heap Nat) 1 (some 1)
        = .ok none ∧
      index (⟨[some ⟨none, none, 7⟩, some ⟨none, none, 8⟩]⟩ : Heap Nat) ⟨some 1, some 1, 2⟩ 1
        = .error .badDeref :=
  ⟨rfl, by decide, rfl, rfl, rfl, by decide, rfl, rfl⟩

theorem pop_back_n_wf {h : Heap α} {l : LinkedList} {nodes : List (Nat × α)} (k : Nat)
    (hw : WellFormed h l nodes) (hk : k ≤ nodes.length) :
    ∃ h2 l2, pop_back_n k h l = .ok (h2, l2, (nodes.map Prod.snd).reverse.take k) ∧
      WellFormed h2 l2 (nodes.take (nodes.length - k)) := by
  induction k generalizing h l nodes with
  | zero => exact ⟨h, l, rfl, by simpa using hw⟩
  | succ k ih =>
    rcases List.eq_nil_or_concat nodes with rfl | ⟨xs, ⟨t, v⟩, rfl⟩
    · simp at hk
    · rw [List.concat_eq_append] at hw hk ⊢
      obtain ⟨h1, l1, hp, hw1, _⟩ := pop_back_wf hw
      obtain ⟨h2, l2, hrun, hw2⟩ := ih hw1 (by simpa using hk)
      refine ⟨h2, l2, ?_, ?_⟩
      · simp only [pop_back_n, hp, hrun]
        simp
      · have hlen : (xs ++ [(t, v)]).length - (k + 1) = xs.length - k := by
          simp
        rw [hlen, List.take_append_of_le_length (Nat.sub_le _ _)]
        exact hw2

/-- C7 (as stated, fails on the code): on the list built from empty by 4294967296 calls
`push_back(0)`, `size` has wrapped to 0, so the first `pop_back()` fails its assertion
instead of returning the last value pushed. -/
theorem pop_back_fails_after_wrap :
    ∃ h l, push_back_all (Heap.empty : Heap Nat) LinkedList.empty
        (List.replicate 4294967296 0) = .ok (h, l) ∧
      length l = 0 ∧ pop_back h l = .error .assertion ∧
      pop_back_n 1 h l = .error .assertion := by
  obtain ⟨h, l, hrun, hsz⟩ := push_back_all_replicate_wrap (Heap.empty : Heap Nat) 0
  have hpop : pop_back h l = .error .assertion := by
    simp [pop_back, hsz]
  refine ⟨h, l, hrun, hsz, hpop, ?_⟩
  simp only [pop_back_n, hpop]

/-- C7 (amended): for every sequence `vs` of `n < 2^32` values, the list built from empty (in
any heap) by `push_back` of each value is returned, and for every `k ≤ n`, `k` successive
`pop_back` calls on it return, their values are the last `k` values of `vs` from the last one
backwards, and `length()` is then `n - k`; after the `n`-th call `length()` is 0 and `root`
and `back` are both null. -/
theorem push_back_all_then_pop_back_n (h0 : Heap α) (vs : List α)
    (hlen : vs.length < UINT_MOD) :
    ∃ h1 l1, push_back_all h0 LinkedList.empty vs = .ok (h1, l1) ∧
      ∀ k, k ≤ vs.length →
        ∃ h2 l2, pop_back_n k h1 l1 = .ok (h2, l2, vs.reverse.take k) ∧
          length l2 = vs.length - k ∧
          (k = vs.length → length l2 = 0 ∧ l2.root = none ∧ l2.back = none) := by
  obtain ⟨h1, l1, news, hrun, hw, hmap, _⟩ := push_back_all_empty_wf h0 vs hlen
  have hlen : news.length = vs.length := by
    rw [← hmap]
    simp
  refine ⟨h1, l1, hrun, fun k hk => ?_⟩
  obtain ⟨h2, l2, hpop, hw2⟩ := pop_back_n_wf k hw (by omega)
  rw [hmap] at hpop
  refine ⟨h2, l2, hpop, ?_, ?_⟩
  · rw [length, hw2.2.2.1, List.length_take, hlen]
    omega
  · intro hkn
    subst hkn
    rw [hlen, Nat.sub_self, List.take_zero] at hw2
    have := WellFormed.nil_iff.1 hw2
    subst this
    exact ⟨rfl, rfl, rfl⟩

theorem push_back_all_then_pop_back_n_witness :
    [1, 2, 3].length < UINT_MOD ∧
      ∃ h1 l1, push_back_all (Heap.empty : Heap Nat) LinkedList.empty [1, 2, 3]
          = .ok (h1, l1) ∧
        ∀ k, k ≤ [1, 2, 3].length →
          ∃ h2 l2, pop_back_n k h1 l1 = .ok (h2, l2, [1, 2, 3].reverse.take k) ∧
            length l2 = [1, 2, 3].length - k ∧
            (k = [1, 2, 3].length → length l2 = 0 ∧ l2.root = none ∧ l2.back = none) :=
  ⟨by decide, push_back_all_then_pop_back_n Heap.empty [1, 2, 3] (by decide)⟩

/-- C8: for two distinct list objects `B` and `A` (`thisAddr ≠ otherAddr`), both well-formed
and owning disjoint nodes, the copy-assignment `B = A` returns (with any loop budget of at
least both sizes); afterwards `B.length() == A.length()`, `B[i] == A[i]` for every
`i < A.length()` (both are returned values, and `A[i]` is what it was before), `B` is
well-formed, and `A` is well-formed over the same nodes and values as before. -/
theorem assign_copies_elements {h : Heap α} {A B : LinkedList}
    {nodesA nodesB : List (Nat × α)} (fuel thisAddr otherAddr : Nat)
    (hne : thisAddr ≠ otherAddr) (hA : WellFormed h A nodesA) (hB : WellFormed h B nodesB)
    (hdisj : ∀ a ∈ nodesA.map Prod.fst, a ∉ nodesB.map Prod.fst)
    (hfA : A.size ≤ fuel) (hfB : B.size ≤ fuel) :
    ∃ h2 B2 nodesB2, assign fuel h thisAddr otherAddr B A = .ok (h2, B2) ∧
      length B2 = length A ∧
      (∀ i, i < length A →
        index h2 B2 i = index h2 A i ∧ index h2 A i = index h A i ∧
          ∃ x, index h A i = .ok x) ∧
      WellFormed h2 B2 nodesB2 ∧ WellFormed h2 A nodesA := by
  obtain ⟨h2, B2, news, hrun, hw2, hmap, hA2, _, _⟩ :=
    assign_wf fuel thisAddr otherAddr hne hA hB hdisj hfA hfB
  have hlenA : A.size = (nodesA.map Prod.snd).length := by
    rw [hA.2.2.1]
    simp
  have hlenB : B2.size = A.size := by
    rw [hw2.2.2.1, hA.2.2.1, ← List.length_map news Prod.snd, hmap]
    simp
  refine ⟨h2, B2, news, hrun, hlenB, fun i hi => ?_, hw2, hA2⟩
  have hiA : i < (nodesA.map Prod.snd).length := by
    rw [← hlenA]
    exact hi
  have hfB2 : Forward h2 B2 (nodesA.map Prod.snd) := by
    rw [← hmap]
    exact hw2.forward
  rw [index_of_forward hfB2 i hiA (by rw [hlenB]; exact hi),
    index_of_forward hA2.forward i hiA hi, index_of_forward hA.forward i hiA hi]
  exact ⟨rfl, rfl, _, rfl⟩

theorem assign_copies_elements_witness :
    (1 : Nat) ≠ 0 ∧ WellFormed pairHeap exampleList [(0, 1), (1, 2)] ∧
      WellFormed pairHeap pairOther [(2, 5)] ∧
      (∀ a ∈ [(0, 1), (1, 2)].map Prod.fst, a ∉ [(2, 5)].map Prod.fst) ∧
      exampleList.size ≤ 2 ∧ pairOther.size ≤ 2 ∧
      ∃ h2 B2 nodesB2, assign 2 pairHeap 1 0 pairOther exampleList = .ok (h2, B2) ∧
        length B2 = length exampleList ∧
        (∀ i, i < length exampleList →
          index h2 B2 i = index h2 exampleList i ∧
            index h2 exampleList i = index pairHeap exampleList i ∧
            ∃ x, index pairHeap exampleList i = .ok x) ∧
        WellFormed h2 B2 nodesB2 ∧ WellFormed h2 exampleList [(0, 1), (1, 2)] :=
  ⟨by decide, pairHeap_wf, pairOther_wf, by decide, by decide, by decide,
    assign_copies_elements 2 1 0 (by decide) pairHeap_wf pairOther_wf (by decide)
      (by decide) (by decide)⟩

/-- C9: after the copy-assignment `B = A` of two distinct well-formed lists owning disjoint
nodes, `B`'s nodes are none of `A`'s, and each mutator call on `A` within its precondition
(`push_back`, `insert_at` with `index <= size`, `pop_back` with `size > 0`) returns and leaves
`B` well-formed over the same nodes and values, so `B.length()` and `B`'s element sequence
are unchanged; the same holds after any further run of mutator calls on `A` that returns. -/
theorem assign_then_mutate_source {h : Heap α} {A B : LinkedList}
    {nodesA nodesB : List (Nat × α)} (fuel thisAddr otherAddr : Nat)
    (hne : thisAddr ≠ otherAddr) (hA : WellFormed h A nodesA) (hB : WellFormed h B nodesB)
    (hdisj : ∀ a ∈ nodesA.map Prod.fst, a ∉ nodesB.map Prod.fst)
    (hfA : A.size ≤ fuel) (hfB : B.size ≤ fuel) :
    ∃ h2 B2 nodesB2, assign fuel h thisAddr otherAddr B A = .ok (h2, B2) ∧
      WellFormed h2 B2 nodesB2 ∧ nodesB2.map Prod.snd = nodesA.map Prod.snd ∧
      (∀ a ∈ nodesB2.map Prod.fst, a ∉ nodesA.map Prod.fst) ∧
      (∀ v, ∃ h3 A3, push_back h2 A v = .ok (h3, A3) ∧ WellFormed h3 B2 nodesB2) ∧
      (∀ v i, i ≤ A.size →
        ∃ h3 A3, insert_at h2 A v i = .ok (h3, A3) ∧ WellFormed h3 B2 nodesB2) ∧
      (0 < A.size → ∃ h3 A3 x, pop_back h2 A = .ok (h3, A3, x) ∧ WellFormed h3 B2 nodesB2) ∧
      (∀ cs h3 A3 out, run_calls h2 A cs = .ok (h3, A3, out) → WellFormed h3 B2 nodesB2) := by
  obtain ⟨h2, B2, news, hrun, hw2, hmap, hA2, hsep, _⟩ :=
    assign_wf fuel thisAddr otherAddr hne hA hB hdisj hfA hfB
  have hliveB := seg_live hw2.1
  refine ⟨h2, B2, news, hrun, hw2, hmap, hsep, fun v => ?_, fun v i hi => ?_, fun hpos => ?_,
    fun cs h3 A3 out hcs => ?_⟩
  · obtain ⟨h3, A3, hp, _, _, _, hframe⟩ := push_back_linked v hA2.linked
    exact ⟨h3, A3, hp,
      seg_frame (fun a ha => hframe a (hsep a ha) (Nat.ne_of_lt (hliveB a ha))) hw2.1,
      hw2.2.1, hw2.2.2⟩
  · obtain ⟨h3, A3, hp, hframe⟩ := insert_at_frame v i hA2 hi
    exact ⟨h3, A3, hp,
      seg_frame (fun a ha => hframe a (hsep a ha) (Nat.ne_of_lt (hliveB a ha))) hw2.1,
      hw2.2.1, hw2.2.2⟩
  · rcases List.eq_nil_or_concat nodesA with hnil | ⟨xs, ⟨t, x⟩, hcat⟩
    · rw [hA.2.2.1, hnil] at hpos
      exact absurd hpos (by simp)
    · rw [List.concat_eq_append] at hcat
      subst hcat
      obtain ⟨h3, A3, hp, _, _, _, _, hframe⟩ := pop_back_wf hA2
      exact ⟨h3, A3, x, hp, seg_frame (fun a ha => hframe a (hsep a ha)) hw2.1,
        hw2.2.1, hw2.2.2⟩
  · have hframe := run_calls_frame cs (closed_of_wf hA2) hcs
    exact ⟨seg_frame (fun a ha => hframe a (hsep a ha) (hliveB a ha)) hw2.1, hw2.2.1, hw2.2.2⟩

theorem assign_then_mutate_source_witness :
    (1 : Nat) ≠ 0 ∧ WellFormed pairHeap exampleList [(0, 1), (1, 2)] ∧
      WellFormed pairHeap pairOther [(2, 5)] ∧
      (∀ a ∈ [(0, 1), (1, 2)].map Prod.fst, a ∉ [(2, 5)].map Prod.fst) ∧
      exampleList.size ≤ 2 ∧ pairOther.size ≤ 2 ∧
      ∃ h2 B2 nodesB2, assign 2 pairHeap 1 0 pairOther exampleList = .ok (h2, B2) ∧
        WellFormed h2 B2 nodesB2 ∧ nodesB2.map Prod.snd = [1, 2] ∧
        (∀ a ∈ nodesB2.map Prod.fst, a ∉ [(0, 1), (1, 2)].map Prod.fst) ∧
        (∀ v, ∃ h3 A3, push_back h2 exampleList v = .ok (h3, A3) ∧
          WellFormed h3 B2 nodesB2) ∧
        (∀ v i, i ≤ exampleList.size →
          ∃ h3 A3, insert_at h2 exampleList v i = .ok (h3, A3) ∧ WellFormed h3 B2 nodesB2) ∧
        (0 < exampleList.size →
          ∃ h3 A3 x, pop_back h2 exampleList = .ok (h3, A3, x) ∧ WellFormed h3 B2 nodesB2) ∧
        (∀ cs h3 A3 out, run_calls h2 exampleList cs = .ok (h3, A3, out) →
          WellFormed h3 B2 nodesB2) :=
  ⟨by decide, pairHeap_wf, pairOther_wf, by decide, by decide, by decide,
    assign_then_mutate_source 2 1 0 (by decide) pairHeap_wf pairOther_wf (by decide)
      (by decide) (by decide)⟩

/-- C10: for every well-formed list `A` with nodes `nodes`, move-constructing `B` from `A`
gives `B` exactly `A`'s former `root`, `back` and `size`, so `B` is well-formed over the very
same nodes of the same heap and has `A`'s former element sequence, and leaves `A` with
`length() == 0`, `root == null` and `back == null`. -/
theorem move_construct_transfers {h : Heap α} {A : LinkedList} {nodes : List (Nat × α)}
    (hw : WellFormed h A nodes) :
    (move_construct A).1.root = A.root ∧ (move_construct A).1.back = A.back ∧
      (move_construct A).1.size = A.size ∧
      WellFormed h (move_construct A).1 nodes ∧
      Forward h (move_construct A).1 (nodes.map Prod.snd) ∧
      length (move_construct A).2 = 0 ∧ (move_construct A).2.root = none ∧
      (move_construct A).2.back = none :=
  ⟨rfl, rfl, rfl, hw, hw.forward, rfl, rfl, rfl⟩

theorem move_construct_transfers_witness :
    WellFormed exampleHeap exampleList [(0, 1), (1, 2)] ∧
      (move_construct exampleList).1.root = exampleList.root ∧
      (move_construct exampleList).1.back = exampleList.back ∧
      (move_construct exampleList).1.size = exampleList.size ∧
      WellFormed exampleHeap (move_construct exampleList).1 [(0, 1), (1, 2)] ∧
      Forward exampleHeap (move_construct exampleList).1 [1, 2] ∧
      length (move_construct exampleList).2 = 0 ∧ (move_construct exampleList).2.root = none ∧
      (move_construct exampleList).2.back = none :=
  ⟨exampleList_wf, move_construct_transfers exampleList_wf⟩

theorem iterate_forward {h : Heap α} {c : Ptr} {vals : List α} (fuel : Nat)
    (hf : FwdSeg h c vals none) (hfuel : vals.length ≤ fuel) :
    iterate fuel h ⟨c⟩ ⟨none⟩ = .ok vals := by
  induction vals generalizing c fuel with
  | nil =>
    simp only [FwdSeg] at hf
    subst hf
    cases fuel <;> simp [iterate, Iterator.ne]
  | cons v rest ih =>
    obtain ⟨a, nd, hc, hr, hv, hrest⟩ := hf
    subst hc
    cases fuel with
    | zero => simp at hfuel
    | succ fuel =>
      have hrec := ih fuel hrest (by simpa using hfuel)
      simp [iterate, Iterator.ne, Iterator.value, Iterator.incr, deref, hr, hv, hrec]

/-- C11: for every vector `es` of `n` elements, the list constructed from `es` (in any heap)
is returned, and iterating it from `begin()` until the cursor equals `end()` returns (with any
budget of at least `n` iterations) having visited exactly the values `es[0], ..., es[n-1]`
in that order; for the empty list `begin()` equals `end()` and nothing is visited. -/
theorem from_vector_iterate (h0 : Heap α) (es : List α) :
    ∃ h l, from_vector h0 es = .ok (h, l) ∧
      (∀ fuel, es.length ≤ fuel → iterate fuel h l.begin l.end_ = .ok es) ∧
      (es = [] → l.begin = l.end_) ∧
      (LinkedList.empty.begin = LinkedList.empty.end_ ∧
        ∀ fuel, iterate fuel h0 LinkedList.empty.begin LinkedList.empty.end_ = .ok []) := by
  obtain ⟨h, l, news, hrun, hl, hmap, _, hnil2⟩ :=
    push_back_all_linked es (empty_linked h0) (by decide : LinkedList.empty.size < UINT_MOD)
  simp only [List.nil_append] at hl
  have hf : FwdSeg h l.root es none := by
    rw [← hmap]
    exact seg_to_fwd hl.1
  refine ⟨h, l, hrun, fun fuel hfuel => iterate_forward fuel hf hfuel, fun hnil => ?_,
    rfl, fun fuel => ?_⟩
  · rw [hnil2 hnil]
    rfl
  · exact iterate_forward fuel (rfl : FwdSeg h0 none ([] : List α) none) (Nat.zero_le _)

/-- C12: starting from the empty list, after `push_back(1)`, `push_back(2)`, `push_back(3)`
the list has `length() == 3`, `operator[](0) == 1` and `operator[](2) == 3`; after then
`insert_at(9, 1)` the element sequence (by iteration and by index) is `[1, 9, 2, 3]` with
`length() == 4`; a following `pop_back()` returns 3 and leaves the sequence `[1, 9, 2]` with
`length() == 3`. -/
theorem concrete_scenario :
    push_back_all (Heap.empty : Heap Nat) LinkedList.empty [1, 2, 3]
        = .ok (scenarioHeap3, ⟨some 0, some 2, 3⟩) ∧
      length ⟨some 0, some 2, 3⟩ = 3 ∧
      index scenarioHeap3 ⟨some 0, some 2, 3⟩ 0 = .ok 1 ∧
      index scenarioHeap3 ⟨some 0, some 2, 3⟩ 2 = .ok 3 ∧
      insert_at scenarioHeap3 ⟨some 0, some 2, 3⟩ 9 1
        = .ok (scenarioHeap4, ⟨some 0, some 2, 4⟩) ∧
      iterate 4 scenarioHeap4 (LinkedList.begin ⟨some 0, some 2, 4⟩)
        (LinkedList.end_ ⟨some 0, some 2, 4⟩) = .ok [1, 9, 2, 3] ∧
      (List.range 4).map (index scenarioHeap4 ⟨some 0, some 2, 4⟩)
        = [.ok 1, .ok 9, .ok 2, .ok 3] ∧
      length ⟨some 0, some 2, 4⟩ = 4 ∧
      pop_back scenarioHeap4 ⟨some 0, some 2, 4⟩
        = .ok (scenarioHeap5, ⟨some 0, some 1, 3⟩, 3) ∧
      iterate 3 scenarioHeap5 (LinkedList.begin ⟨some 0, some 1, 3⟩)
        (LinkedList.end_ ⟨some 0, some 1, 3⟩) = .ok [1, 9, 2] ∧
      (List.range 3).map (index scenarioHeap5 ⟨some 0, some 1, 3⟩)
        = [.ok 1, .ok 9, .ok 2] ∧
      length ⟨some 0, some 1, 3⟩ = 3 :=
  ⟨rfl, rfl, rfl, rfl, rfl, rfl, rfl, rfl, rfl, rfl, rfl, rfl⟩

theorem deref_error {h : Heap α} {p : Ptr} {e : Fault} (he : deref h p = .error e) :
    e = .badDeref := by
  cases p with
  | none =>
    simp only [deref, Except.error.injEq] at he
    exact he.symm
  | some a =>
    cases hr : h.read a with
    | none =>
      simp only [deref, hr, Except.error.injEq] at he
      exact he.symm
    | some nd => simp [deref, hr] at he

theorem advance_error {h : Heap α} (k : Nat) {p : Ptr} {e : Fault}
    (he : advance h k p = .error e) : e = .badDeref := by
  induction k generalizing p with
  | zero => simp [advance] at he
  | succ k ih =>
    cases hd : deref h p with
    | error e2 =>
      simp only [advance, hd, Except.error.injEq] at he
      rw [← he]
      exact deref_error hd
    | ok r =>
      obtain ⟨a, nd⟩ := r
      simp only [advance, hd] at he
      exact ih he

theorem push_back_error {h : Heap α} {l : LinkedList} {v : α} {e : Fault}
    (he : push_back h l v = .error e) : e = .badDeref := by
  unfold push_back at he
  split at he
  · simp at he
  · simp only at he
    split at he
    · exact (Except.error.inj he).symm
    · split at he
      · exact (Except.error.inj he).symm
      · simp at he

/-- A failing `insert_at` either fails its assertion, and then `index > size`, or
dereferences a bad pointer, and then `index <= size`. -/
theorem insert_at_error {h : Heap α} {l : LinkedList} {v : α} {i : Nat} {e : Fault}
    (he : insert_at h l v i = .error e) :
    (e = .assertion ∧ l.size < i) ∨ (e = .badDeref ∧ i ≤ l.size) := by
  by_cases hle : i ≤ l.size
  · refine Or.inr ⟨?_, hle⟩
    simp only [insert_at, hle, if_true] at he
    split at he
    · split at he
      · split at he
        · exact (Except.error.inj he).symm
        · simp at he
      · simp at he
    · split at he
      · exact push_back_error he
      · split at he
        · rename_i e2 hadv
          rw [← Except.error.inj he]
          exact advance_error _ hadv
        · split at he
          · rename_i e2 hd
            rw [← Except.error.inj he]
            exact deref_error hd
          · split at he
            · split at he
              · exact (Except.error.inj he).symm
              · split at he
                · exact (Except.error.inj he).symm
                · simp at he
            · simp at he
  · refine Or.inl ⟨?_, by omega⟩
    simp only [insert_at, hle, if_false, Except.error.injEq] at he
    exact he.symm

/-- A failing `operator[]` either fails its assertion, and then `index >= size`, or
dereferences a bad pointer, and then `index < size`. -/
theorem index_error {h : Heap α} {l : LinkedList} {i : Nat} {e : Fault}
    (he : index h l i = .error e) :
    (e = .assertion ∧ l.size ≤ i) ∨ (e = .badDeref ∧ i < l.size) := by
  by_cases hlt : i < l.size
  · refine Or.inr ⟨?_, hlt⟩
    simp only [index, hlt, if_true] at he
    split at he
    · rename_i e2 hadv
      rw [← Except.error.inj he]
      exact advance_error _ hadv
    · split at he
      · rename_i e2 hd
        rw [← Except.error.inj he]
        exact deref_error hd
      · simp at he
  · refine Or.inl ⟨?_, by omega⟩
    simp only [index, hlt, if_false, Except.error.injEq] at he
    exact he.symm

/-- C13: for every heap, list, value and index, `insert_at(v, index)` fails its assertion
exactly when `index > size`, and `operator[](index)` fails its assertion exactly when
`index >= size`; such a call returns no heap and no list, so no node was created and the
attributes are the ones the call started with. -/
theorem out_of_range_assertion (h : Heap α) (l : LinkedList) (v : α) (i : Nat) :
    (insert_at h l v i = .error .assertion ↔ l.size < i) ∧
      (index h l i = .error .assertion ↔ l.size ≤ i) ∧
      (l.size < i → ∀ r, insert_at h l v i ≠ .ok r) ∧
      (l.size ≤ i → ∀ x, index h l i ≠ .ok x) := by
  have hins : l.size < i → insert_at h l v i = .error .assertion := by
    intro hlt
    have hle : ¬ i ≤ l.size := by omega
    simp only [insert_at, hle, if_false]
  have hidx : l.size ≤ i → index h l i = .error .assertion := by
    intro hle
    have hlt : ¬ i < l.size := by omega
    simp only [index, hlt, if_false]
  refine ⟨⟨fun he => ?_, hins⟩, ⟨fun he => ?_, hidx⟩, fun hlt r hr => ?_, fun hle x hx => ?_⟩
  · rcases insert_at_error he with ⟨_, hlt⟩ | ⟨hbad, _⟩
    · exact hlt
    · exact absurd hbad (by decide)
  · rcases index_error he with ⟨_, hle⟩ | ⟨hbad, _⟩
    · exact hle
    · exact absurd hbad (by decide)
  · rw [hins hlt] at hr
    exact absurd hr (by simp)
  · rw [hidx hle] at hx
    exact absurd hx (by simp)

/-- C14: on a list with `size == 0`, `pop_back()` and `operator[](i)` for every `i` fail
their assertion: neither returns a value (nor a heap or list, so the attributes are the ones
the call started with). -/
theorem empty_access_assertion (h : Heap α) (l : LinkedList) (hsz : l.size = 0) :
    pop_back h l = .error .assertion ∧ (∀ i, index h l i = .error .assertion) ∧
      (∀ r, pop_back h l ≠ .ok r) ∧ (∀ i x, index h l i ≠ .ok x) := by
  have hpop : pop_back h l = .error .assertion := by
    simp [pop_back, hsz]
  have hidx : ∀ i, index h l i = .error .assertion := by
    intro i
    simp [index, hsz]
  refine ⟨hpop, hidx, fun r hr => ?_, fun i x hx => ?_⟩
  · rw [hpop] at hr
    exact absurd hr (by simp)
  · rw [hidx i] at hx
    exact absurd hx (by simp)

theorem empty_access_assertion_witness :
    LinkedList.empty.size = 0 ∧
      pop_back (Heap.empty : Heap Nat) LinkedList.empty = .error .assertion ∧
      (∀ i, index (Heap.empty : Heap Nat) LinkedList.empty i = .error .assertion) ∧
      (∀ r, pop_back (Heap.empty : Heap Nat) LinkedList.empty ≠ .ok r) ∧
      (∀ i x, index (Heap.empty : Heap Nat) LinkedList.empty i ≠ .ok x) :=
  ⟨rfl, empty_access_assertion Heap.empty LinkedList.empty rfl⟩

/-- C15 (fails on the code): from the empty list in the empty heap, `insert_at(7, 0)` then
`push_back(8)` return a state where nodes 0 and 1 are both allocated and not deleted, but
`root` is node 1 and its right link is null, so node 0 is not reachable from `root`; the
destructor's walk deletes node 1 only and leaves node 0 allocated. -/
theorem destructor_leaks_after_insert_at_empty :
    run_calls (Heap.empty : Heap Nat) LinkedList.empty [.insert_at 7 0, .push_back 8]
        = .ok (⟨[some ⟨none, none, 7⟩, some ⟨none, none, 8⟩]⟩, ⟨some 1, some 1, 2⟩, []) ∧
      Heap.live (⟨[some ⟨none, none, 7⟩, some ⟨none, none, 8⟩]⟩ : Heap Nat) = [0, 1] ∧
      Seg (⟨[some ⟨none, none, 7⟩, some ⟨none, none, 8⟩]⟩ : Heap Nat) none (some 1)
        [(1, 8)] none ∧
      destructor 2 (⟨[some ⟨none, none, 7⟩, some ⟨none, none, 8⟩]⟩ : Heap Nat)
          ⟨some 1, some 1, 2⟩
        = .ok (⟨[some ⟨none, none, 7⟩, none]⟩, ⟨none, some 1, 2⟩, [1]) ∧
      Heap.live (⟨[some ⟨none, none, 7⟩, none]⟩ : Heap Nat) = [0] :=
  ⟨rfl, by decide, ⟨rfl, none, rfl, rfl⟩, rfl, by decide⟩

/-- C16: for every well-formed list whose nodes are `xs` followed by a last node `t` holding
`x`, `pop_back()` returns `x` and leaves a well-formed list over `xs` (so the forward
sequence is that of `xs`) with `size` decreased by 1; the new `back` is the removed node's
former left link, and the node it designates, if any, has a null right link; when `xs` is
empty the result is the empty state with `root` and `back` null. -/
theorem pop_back_removes_last {h : Heap α} {l : LinkedList} {xs : List (Nat × α)} {t : Nat}
    {x : α} (hw : WellFormed h l (xs ++ [(t, x)])) :
    ∃ h2 l2, pop_back h l = .ok (h2, l2, x) ∧ WellFormed h2 l2 xs ∧
      Forward h2 l2 (xs.map Prod.snd) ∧ l2.size + 1 = l.size ∧
      (∃ nt, h.read t = some nt ∧ l2.back = nt.left) ∧
      (∀ b, l2.back = some b → ∃ nb, h2.read b = some nb ∧ nb.right = none) ∧
      (xs = [] → l2.size = 0 ∧ l2.root = none ∧ l2.back = none) := by
  obtain ⟨_, hrt, _, hsize, _⟩ := WellFormed.snoc_inv hw
  obtain ⟨h2, l2, hp, hw2, hsz2, _⟩ := pop_back_wf hw
  refine ⟨h2, l2, hp, hw2, hw2.forward, by omega, ⟨_, hrt, hw2.2.1⟩, fun b hb => ?_,
    fun hnil => ?_⟩
  · rcases List.eq_nil_or_concat xs with hnil | ⟨ys, ⟨c, w⟩, hcat⟩
    · subst hnil
      rw [WellFormed.nil_iff.1 hw2] at hb
      exact absurd hb (by simp [LinkedList.empty])
    · rw [List.concat_eq_append] at hcat
      subst hcat
      obtain ⟨_, hrc, hback, _⟩ := WellFormed.snoc_inv hw2
      rw [hback] at hb
      rw [← Option.some.inj hb]
      exact ⟨_, hrc, rfl⟩
  · subst hnil
    rw [WellFormed.nil_iff.1 hw2]
    exact ⟨rfl, rfl, rfl⟩

theorem pop_back_removes_last_witness :
    WellFormed exampleHeap exampleList ([(0, 1)] ++ [(1, 2)]) ∧
      ∃ h2 l2, pop_back exampleHeap exampleList = .ok (h2, l2, 2) ∧
        WellFormed h2 l2 [(0, 1)] ∧ Forward h2 l2 [1] ∧ l2.size + 1 = exampleList.size ∧
        (∃ nt, exampleHeap.read 1 = some nt ∧ l2.back = nt.left) ∧
        (∀ b, l2.back = some b → ∃ nb, h2.read b = some nb ∧ nb.right = none) ∧
        ([(0, 1)] = ([] : List (Nat × Nat)) → l2.size = 0 ∧ l2.root = none ∧ l2.back = none) :=
  ⟨exampleList_wf, pop_back_removes_last exampleList_wf⟩

/-- C17 (fails on the code): on the empty (well-formed) list `insert_at(7, 0)` returns a list
whose forward traversal from `root` visits node 0, while `back` is null: the walk through
left links from `back` visits no node, so it is not the forward traversal in reverse. -/
theorem insert_at_empty_breaks_back_walk :
    WellFormed (Heap.empty : Heap Nat) LinkedList.empty [] ∧
      insert_at (Heap.empty : Heap Nat) LinkedList.empty 7 0
        = .ok (⟨[some ⟨none, none, 7⟩]⟩, ⟨some 0, none, 1⟩) ∧
      Seg (⟨[some ⟨none, none, 7⟩]⟩ : Heap Nat) none (⟨some 0, none, 1⟩ : LinkedList).root
        [(0, 7)] none ∧
      BwdSeg (⟨[some ⟨none, none, 7⟩]⟩ : Heap Nat) (⟨some 0, none, 1⟩ : LinkedList).back
        [] none ∧
      ¬ BwdSeg (⟨[some ⟨none, none, 7⟩]⟩ : Heap Nat) (⟨some 0, none, 1⟩ : LinkedList).back
        ([(0, 7)] : List (Nat × Nat)).reverse none :=
  ⟨⟨rfl, rfl, rfl, by decide⟩, rfl, ⟨rfl, none, rfl, rfl⟩, rfl,
    fun hb => absurd hb.1 (by decide)⟩

theorem seg_backward {h : Heap α} {p c n : Ptr} {nodes : List (Nat × α)}
    (hs : Seg h p c nodes n) : BwdSeg h (lastAddr p nodes) nodes.reverse p := by
  induction nodes using List.reverseRecOn generalizing n with
  | nil => rfl
  | append_singleton xs x ih =>
    obtain ⟨a, v⟩ := x
    obtain ⟨m, h1, hm, r, hr, _⟩ := seg_append.1 hs
    rw [List.reverse_append, lastAddr_snoc]
    exact ⟨rfl, _, hr, rfl, ih h1⟩

/-- In a well-formed list the left links from `back` visit the nodes of the forward
traversal in reverse order and end with a null left link. -/
theorem wellFormed_backward {h : Heap α} {l : LinkedList} {nodes : List (Nat × α)}
    (hw : WellFormed h l nodes) : BwdSeg h l.back nodes.reverse none := by
  rw [hw.2.1]
  exact seg_backward hw.1

/-- In a well-formed list two adjacent nodes `a`, `b` satisfy `a.right == b` and
`b.left == a`. -/
theorem wellFormed_adjacent {h : Heap α} {l : LinkedList} {xs ys : List (Nat × α)}
    {a b : Nat} {v w : α} (hw : WellFormed h l (xs ++ (a, v) :: (b, w) :: ys)) :
    ∃ na nb, h.read a = some na ∧ na.right = some b ∧ h.read b = some nb ∧
      nb.left = some a := by
  obtain ⟨m, _, _, r, hra, hr, rr, hrb, _⟩ := seg_append.1 hw.1
  subst hr
  exact ⟨_, _, hra, rfl, hrb, rfl⟩

theorem wellFormed_record_unique {h h2 : Heap α} {l l2 : LinkedList}
    {nodes : List (Nat × α)} (hw : WellFormed h l nodes) (hw2 : WellFormed h2 l2 nodes) :
    l2 = l := by
  obtain ⟨root, back, size⟩ := l
  obtain ⟨root2, back2, size2⟩ := l2
  obtain ⟨hs, hb, hz, _⟩ := hw
  obtain ⟨hs2, hb2, hz2, _⟩ := hw2
  simp only at hs hb hz hs2 hb2 hz2
  have hroot : root2 = root := by
    cases nodes with
    | nil =>
      simp only [Seg] at hs hs2
      rw [hs, hs2]
    | cons x xs =>
      obtain ⟨a, v⟩ := x
      rw [hs.1, hs2.1]
  rw [hroot, hb, hb2, hz, hz2]

/-- In the middle case of `insert_at` on a well-formed list the walk of `index - 1` right
steps from `root` ends on a live node whose right link is not null. -/
theorem insert_at_middle_predecessor {h : Heap α} {l : LinkedList} {nodes : List (Nat × α)}
    (i : Nat) (hw : WellFormed h l nodes) (h0 : 0 < i) (hi : i < l.size) :
    ∃ n nd r, advance h (i - 1) l.root = .ok (some n) ∧ h.read n = some nd ∧
      nd.right = some r := by
  have hsize : l.size = nodes.length := hw.2.2.1
  obtain ⟨xs, ⟨n, w⟩, ⟨r, u⟩, ys, hnodes, hlen⟩ := exists_split_two (i - 1) nodes (by omega)
  subst hnodes
  obtain ⟨m, hs1, hm, nr, hrn, hr, _⟩ := seg_append.1 hw.1
  subst hm
  have hadv := fwd_advance (seg_to_fwd hs1)
  rw [List.length_map, hlen] at hadv
  exact ⟨n, _, r, hadv, hrn, hr⟩

/-- C18 (as stated, fails on the code): on the well-formed list built by 4294967295 calls
`push_back(0)` (so `size >= 1`), `insert_at(7, 0)` returns with `size` wrapped to 0 while
`root` is the new node: `size == 0 iff root == null` is false afterwards. -/
theorem insert_at_wraps_breaks_invariants :
    ∃ h l nodes, push_back_all (Heap.empty : Heap Nat) LinkedList.empty
        (List.replicate 4294967295 0) = .ok (h, l) ∧
      WellFormed h l nodes ∧ 1 ≤ l.size ∧
      ∃ h2 l2, insert_at h l 7 0 = .ok (h2, l2) ∧ l2.size = 0 ∧ l2.root ≠ none ∧
        ¬ (l2.size = 0 ↔ l2.root = none) := by
  obtain ⟨h, l, nodes, hrun, hw, hsz⟩ :=
    push_back_all_replicate (Heap.empty : Heap Nat) 0 4294967295 (by decide)
  have hne : nodes ≠ [] := by
    intro hnil
    rw [hw.2.2.1, hnil] at hsz
    simp at hsz
  obtain ⟨h2, l2, hins, hl2, hsz2, _⟩ :=
    insert_at_nonempty_linked 7 0 hw hne (Nat.zero_le _)
  have hz : l2.size = 0 := by
    rw [hsz2, hsz]
    decide
  have hseg := hl2.1
  simp only [List.take_zero, List.nil_append, List.drop_zero] at hseg
  have hroot : l2.root ≠ none := by
    rw [hseg.1]
    simp
  exact ⟨h, l, nodes, hrun, hw, by rw [hsz]; decide, h2, l2, hins, hz, hroot,
    fun hiff => hroot (hiff.1 hz)⟩

/-- C18 (amended): for every well-formed list with `1 <= size < 2^32 - 1`, every value `v`
and every `index <= size`, `insert_at(v, index)` returns (no null or deleted node is
dereferenced; in the middle case `0 < index < size` the walk of `index - 1` right steps ends
on a live node with a non-null right link), and the resulting list satisfies the data-model
invariants over the old nodes with the new node at position `index`: the forward chain from
`root` has `size` nodes and ends at `back` with a null right link, left links mirror right
links, the emptiness equivalences hold, the left links from `back` visit the same nodes in
reverse, and adjacent nodes point at each other. -/
theorem insert_at_preserves_wellFormed {h : Heap α} {l : LinkedList}
    {nodes : List (Nat × α)} (v : α) (i : Nat) (hw : WellFormed h l nodes)
    (hpos : 1 ≤ l.size) (hroom : l.size + 1 < UINT_MOD) (hi : i ≤ l.size) :
    ∃ h2 l2, insert_at h l v i = .ok (h2, l2) ∧
      WellFormed h2 l2 (nodes.take i ++ (h.fresh, v) :: nodes.drop i) ∧
      ((l2.size = 0 ↔ l2.root = none) ∧ (l2.root = none ↔ l2.back = none)) ∧
      BwdSeg h2 l2.back (nodes.take i ++ (h.fresh, v) :: nodes.drop i).reverse none ∧
      (∀ xs ys a b x y, nodes.take i ++ (h.fresh, v) :: nodes.drop i
          = xs ++ (a, x) :: (b, y) :: ys →
        ∃ na nb, h2.read a = some na ∧ na.right = some b ∧ h2.read b = some nb ∧
          nb.left = some a) ∧
      (0 < i → i < l.size →
        ∃ n nd r, advance h (i - 1) l.root = .ok (some n) ∧ h.read n = some nd ∧
          nd.right = some r) := by
  have hne : nodes ≠ [] := by
    intro hnil
    rw [hw.2.2.1, hnil] at hpos
    simp at hpos
  obtain ⟨h2, l2, hrun, hw2, _⟩ := insert_at_nonempty_wf v i hw hne hi hroom
  refine ⟨h2, l2, hrun, hw2, wellFormed_empty_iff hw2, wellFormed_backward hw2,
    fun xs ys a b x y heq => ?_, fun h0 hlt => insert_at_middle_predecessor i hw h0 hlt⟩
  rw [heq] at hw2
  exact wellFormed_adjacent hw2

theorem insert_at_preserves_wellFormed_witness :
    WellFormed exampleHeap exampleList [(0, 1), (1, 2)] ∧ 1 ≤ exampleList.size ∧
      exampleList.size + 1 < UINT_MOD ∧ 1 ≤ exampleList.size ∧
      ∃ h2 l2, insert_at exampleHeap exampleList 9 1 = .ok (h2, l2) ∧
        WellFormed h2 l2 [(0, 1), (2, 9), (1, 2)] ∧
        ((l2.size = 0 ↔ l2.root = none) ∧ (l2.root = none ↔ l2.back = none)) ∧
        BwdSeg h2 l2.back [(1, 2), (2, 9), (0, 1)] none ∧
        (∀ xs ys a b x y, [(0, 1), (2, 9), (1, 2)] = xs ++ (a, x) :: (b, y) :: ys →
          ∃ na nb, h2.read a = some na ∧ na.right = some b ∧ h2.read b = some nb ∧
            nb.left = some a) ∧
        (0 < 1 → 1 < exampleList.size →
          ∃ n nd r, advance exampleHeap (1 - 1) exampleList.root = .ok (some n) ∧
            exampleHeap.read n = some nd ∧ nd.right = some r) :=
  ⟨exampleList_wf, by decide, by decide, by decide,
    insert_at_preserves_wellFormed 9 1 exampleList_wf (by decide) (by decide) (by decide)⟩

/-- C19 (as stated, fails on the code): on the well-formed list built by 4294967295 calls
`push_back(0)`, `push_back(7)` returns with `size` wrapped to 0, and the following
`pop_back()` fails its assertion instead of returning 7. -/
theorem push_back_pop_back_fails_at_wrap :
    ∃ h l nodes, push_back_all (Heap.empty : Heap Nat) LinkedList.empty
        (List.replicate 4294967295 0) = .ok (h, l) ∧
      WellFormed h l nodes ∧
      ∃ h1 l1, push_back h l 7 = .ok (h1, l1) ∧ l1.size = 0 ∧
        pop_back h1 l1 = .error .assertion := by
  obtain ⟨h, l, nodes, hrun, hw, hsz⟩ :=
    push_back_all_replicate (Heap.empty : Heap Nat) 0 4294967295 (by decide)
  obtain ⟨h1, l1, hpush, _, hsz1, _⟩ := push_back_linked 7 hw.linked
  have hz : l1.size = 0 := by
    rw [hsz1, hsz]
    decide
  refine ⟨h, l, nodes, hrun, hw, h1, l1, hpush, hz, ?_⟩
  simp [pop_back, hz]

/-- C19 (amended): for every well-formed list `L` with `size < 2^32 - 1` (the empty list
included) and every value `v`, `push_back(v)` followed by `pop_back()` returns `v` and leaves
exactly the attributes of `L` (same `root`, `back` and `size`), well-formed over the same
nodes with the same values, so with the same forward element sequence. -/
theorem push_back_pop_back_identity {h : Heap α} {l : LinkedList} {nodes : List (Nat × α)}
    (v : α) (hw : WellFormed h l nodes) (hroom : l.size + 1 < UINT_MOD) :
    ∃ h1 l1 h2, push_back h l v = .ok (h1, l1) ∧ pop_back h1 l1 = .ok (h2, l, v) ∧
      WellFormed h2 l nodes ∧ Forward h2 l (nodes.map Prod.snd) := by
  obtain ⟨h1, l1, hpush, hw1, _⟩ := push_back_wf v hw hroom
  obtain ⟨h2, l2, hpop, hw2, _⟩ := pop_back_wf hw1
  have hl : l2 = l := wellFormed_record_unique hw hw2
  subst hl
  exact ⟨h1, l1, h2, hpush, hpop, hw2, hw2.forward⟩

theorem push_back_pop_back_identity_witness :
    WellFormed exampleHeap exampleList [(0, 1), (1, 2)] ∧ exampleList.size + 1 < UINT_MOD ∧
      ∃ h1 l1 h2, push_back exampleHeap exampleList 9 = .ok (h1, l1) ∧
        pop_back h1 l1 = .ok (h2, exampleList, 9) ∧
        WellFormed h2 exampleList [(0, 1), (1, 2)] ∧ Forward h2 exampleList [1, 2] :=
  ⟨exampleList_wf, by decide, push_back_pop_back_identity 9 exampleList_wf (by decide)⟩

/-- C20: for two distinct list objects `this` and `other`, both well-formed and owning
disjoint nodes, and any loop budget of at least both sizes: the clearing loop of `operator=`
returns after exactly `this.size` iterations, its result is the result of `this.size`
successive `pop_back` calls (after fewer of them `size` is still positive), which is the
empty state (`root` and `back` null, `size` 0) with every node of `this` deleted; the copying
loop over `other`'s right links then returns after exactly `other.size` iterations, its
result is the result of `push_back` of `other`'s values in order; and the assignment returns
that result. -/
theorem assign_loops_terminate {h : Heap α} {A B : LinkedList}
    {nodesA nodesB : List (Nat × α)} (fuel thisAddr otherAddr : Nat)
    (hne : thisAddr ≠ otherAddr) (hA : WellFormed h A nodesA) (hB : WellFormed h B nodesB)
    (hdisj : ∀ a ∈ nodesA.map Prod.fst, a ∉ nodesB.map Prod.fst)
    (hfA : A.size ≤ fuel) (hfB : B.size ≤ fuel) :
    ∃ h1 h2 B2 outs, clear_loop fuel h B = .ok (h1, ⟨none, none, 0⟩, B.size) ∧
      pop_back_n B.size h B = .ok (h1, ⟨none, none, 0⟩, outs) ∧
      (∀ k, k < B.size → ∃ hk lk outk, pop_back_n k h B = .ok (hk, lk, outk) ∧ 0 < lk.size) ∧
      (∀ a ∈ nodesB.map Prod.fst, h1.read a = none) ∧
      copy_loop fuel h1 ⟨none, none, 0⟩ A.root = .ok (h2, B2, A.size) ∧
      push_back_all h1 ⟨none, none, 0⟩ (nodesA.map Prod.snd) = .ok (h2, B2) ∧
      assign fuel h thisAddr otherAddr B A = .ok (h2, B2) := by
  obtain ⟨h1, hclear, _, hframe1, hfreed, outs, hpops⟩ :=
    clear_loop_wf fuel hB (by rw [← hB.2.2.1]; exact hfB)
  have hA1 : Seg h1 none A.root nodesA none :=
    seg_frame (fun a ha => hframe1 a (hdisj a ha)) hA.1
  have hroomA : LinkedList.empty.size + nodesA.length < UINT_MOD := by
    rw [← hA.2.2.1]
    simpa [LinkedList.empty, DEFAULT_SIZE] using hA.2.2.2
  obtain ⟨h2, B2, news, hcopy, _, _, _, _, hpush⟩ :=
    copy_loop_wf fuel (empty_wf h1) hA1 (by simp) (by rw [← hA.2.2.1]; exact hfA) hroomA
  rw [← hB.2.2.1] at hclear hpops
  rw [← hA.2.2.1] at hcopy
  refine ⟨h1, h2, B2, outs, hclear, hpops, fun k hk => ?_, hfreed, hcopy, hpush, ?_⟩
  · have hk2 : k ≤ nodesB.length := by
      rw [← hB.2.2.1]
      exact le_of_lt hk
    obtain ⟨hk3, lk, hpk, hwk⟩ := pop_back_n_wf k hB hk2
    refine ⟨hk3, lk, _, hpk, ?_⟩
    rw [hwk.2.2.1, List.length_take, ← hB.2.2.1]
    omega
  · simp only [assign, hne, ne_eq, not_false_eq_true, if_true, hclear, hcopy]

theorem assign_loops_terminate_witness :
    (1 : Nat) ≠ 0 ∧ WellFormed pairHeap exampleList [(0, 1), (1, 2)] ∧
      WellFormed pairHeap pairOther [(2, 5)] ∧
      (∀ a ∈ [(0, 1), (1, 2)].map Prod.fst, a ∉ [(2, 5)].map Prod.fst) ∧
      exampleList.size ≤ 2 ∧ pairOther.size ≤ 2 ∧
      ∃ h1 h2 B2 outs,
        clear_loop 2 pairHeap pairOther = .ok (h1, ⟨none, none, 0⟩, pairOther.size) ∧
        pop_back_n pairOther.size pairHeap pairOther = .ok (h1, ⟨none, none, 0⟩, outs) ∧
        (∀ k, k < pairOther.size →
          ∃ hk lk outk, pop_back_n k pairHeap pairOther = .ok (hk, lk, outk) ∧ 0 < lk.size) ∧
        (∀ a ∈ [(2, 5)].map Prod.fst, h1.read a = none) ∧
        copy_loop 2 h1 ⟨none, none, 0⟩ exampleList.root = .ok (h2, B2, exampleList.size) ∧
        push_back_all h1 ⟨none, none, 0⟩ ([(0, 1), (1, 2)].map Prod.snd) = .ok (h2, B2) ∧
        assign 2 pairHeap 1 0 pairOther exampleList = .ok (h2, B2) :=
  ⟨by decide, pairHeap_wf, pairOther_wf, by decide, by decide, by decide,
    assign_loops_terminate 2 1 0 (by decide) pairHeap_wf pairOther_wf (by decide)
      (by decide) (by decide)⟩

end generic
